import Mathlib

/-!
# Scanline scheduling and shading kernel of the ray tracer

A shallow embedding of `src/in-one-weekend/threading.h` and
`src/in-one-weekend/color.h`.

Conventions of the embedding.

* C++ `int` values are mathematical integers (`Int`).  In `multi_threaded` and
  `single_threaded` every intermediate value lies between `-N` and
  `image_height`, so nothing leaves the range of `int`; in `thread_work` the
  products lie between `0` and `image_height + N` (`thread_work_products_bounded`).
* `ceil((double)image_height / N)` is the exact ceiling of the quotient: for two
  `int` values the quotient is an integer or differs from every integer by at
  least `1/N`, far more than the rounding error of a `double` division.
* `double` values are elements of an arbitrary linearly ordered field `K` with a
  floor function (exact arithmetic); `sqrt`, `unit_vector`, `get_ray` and
  `random_double` come from headers that are not among the sources and are
  parameters of the functions using them.  A division whose divisor matters is
  also given in checked form (`div_checked`).
* The text sent to `std::cout` is the list of the strings written, in order; the
  stream of `write_color` is the string written so far.
* In the schedulers the pixel computation of the row renderers (camera, samples,
  `ray_color`, encoding) is a parameter `pixel j i` giving the text of row `j`,
  column `i`; the sample loop itself is `pixel_color_sum`.
* The workers of one batch write disjoint slots; they are run one after the
  other in launch order, and the join is the end of that sequence.  The order of
  the scheduler's launches, joins and slot reads is kept separately as a
  sequence of `thread_event`s, checked against the contract of `std::thread`
  (a worker is finished once `join` has returned).
-/

namespace RayTracing

/-! # Part I: the embedding -/

/-! ## Loop ranges -/

/-- The values taken by `i` in `for (int i = 0; i < n; ++i)`: `0, 1, …, n-1`. -/
def upTo (n : Int) : List Int :=
  (List.range n.toNat).map (fun k : Nat => (k : Int))

/-- The values taken by `j` in `for (int j = top; j >= bottom; --j)`:
`top, top-1, …, bottom`. -/
def downFrom (top bottom : Int) : List Int :=
  (List.range (top - bottom + 1).toNat).map (fun k : Nat => top - (k : Int))

/-! ## Parameter records -/

/-- The integer fields of `struct scene_params`; `world` and `cam` are
represented by the pixel function. -/
structure scene_params where
  samples_per_pixel : Int
  image_width : Int
  image_height : Int
  max_depth : Int
deriving DecidableEq, Repr

/-- The integer fields of `struct thread_params`; `world` and `cam` are
represented by the pixel function and `thread_outputs` by the slot table that
is passed explicitly. -/
structure thread_params where
  line_index : Int
  thread_index : Int
  samples_per_pixel : Int
  image_width : Int
  image_height : Int
  max_depth : Int
  N : Int
deriving DecidableEq, Repr

/-! ## The slot table `thread_outputs` -/

/-- The assignment `(*thread_outputs)[t][i] = s`; `none` when an index is
outside the table. -/
def slot_store (outs : List (List String)) (t i : Int) (s : String) :
    Option (List (List String)) :=
  if 0 ≤ t ∧ t < outs.length then
    let slot := outs.getD t.toNat []
    if 0 ≤ i ∧ i < slot.length then
      some (outs.set t.toNat (slot.set i.toNat s))
    else none
  else none

/-- The read `thread_outputs[t]`; `none` when the index is outside the table. -/
def slot_load (outs : List (List String)) (t : Int) : Option (List String) :=
  if 0 ≤ t then outs[t.toNat]? else none

/-- The worker `one_line_thread`: for `i = 0 … image_width-1` store the text of
pixel `(line_index, i)` at `(*thread_outputs)[thread_index][i]`. -/
def one_line_thread (pixel : Int → Int → String) (tp : thread_params)
    (outs : List (List String)) : Option (List (List String)) :=
  (upTo tp.image_width).foldlM
    (fun o i => slot_store o tp.thread_index i (pixel tp.line_index i)) outs

/-- The value `thread_chunk_size = ceil((double)image_height / N)` in
`thread_work`, as the exact ceiling of the quotient. -/
def thread_chunk_size (tp : thread_params) : Int :=
  ⌈(tp.image_height : ℚ) / (tp.N : ℚ)⌉

/-- The `thread_params` that `multi_threaded` fills in for member `i` of the
batch whose top row is `j`. -/
def batch_member (N : Int) (sp : scene_params) (j i : Int) : thread_params :=
  { thread_index := i
    line_index := j - i
    samples_per_pixel := sp.samples_per_pixel
    image_height := sp.image_height
    image_width := sp.image_width
    max_depth := sp.max_depth
    N := N }

/-- What a run of `multi_threaded` leaves behind: the text written to
`std::cout`, the slot table at the end, and (ghost) the workers launched,
batch by batch. -/
structure render_log where
  cout : List String
  thread_outputs : List (List String)
  batches : List (List thread_params)
deriving DecidableEq, Repr

/-- The loop `for (int j = …; j >= 0; j -= N)` of `multi_threaded`, started at
`j` with slot table `outs`.  `fuel` bounds the number of iterations; `none`
means the fuel ran out or an index left the slot table. -/
def multi_threaded_loop (pixel : Int → Int → String) (N : Int) (sp : scene_params) :
    Nat → Int → List (List String) → Option render_log
  | 0, j, outs => if 0 ≤ j then none else some ⟨[], outs, []⟩
  | fuel + 1, j, outs =>
    if 0 ≤ j then
      let num_threads := min N (j + 1)
      let launched := (upTo num_threads).map (batch_member N sp j)
      do
        -- launch the workers, then join them
        let outs1 ← launched.foldlM (fun o tp => one_line_thread pixel tp o) outs
        -- print the work of this batch
        let printed ← (upTo num_threads).mapM (slot_load outs1)
        let rest ← multi_threaded_loop pixel N sp fuel (j - N) outs1
        some ⟨printed.flatten ++ rest.cout, rest.thread_outputs, launched :: rest.batches⟩
    else some ⟨[], outs, []⟩

/-- The scheduler `multi_threaded(N, sp)`.  The two vectors are allocated first
(a negative size is a failed allocation), then the batches run from row
`image_height - 1`. -/
def multi_threaded (pixel : Int → Int → String) (fuel : Nat) (N : Int)
    (sp : scene_params) : Option render_log :=
  if 0 ≤ N ∧ 0 ≤ sp.image_width then
    multi_threaded_loop pixel N sp fuel (sp.image_height - 1)
      (List.replicate N.toNat (List.replicate sp.image_width.toNat ""))
  else none

/-- The sequential path `single_threaded(sp)`: rows `image_height-1` down to
`0`, columns `0` up to `image_width-1`, each pixel written to `std::cout` at
once. -/
def single_threaded (pixel : Int → Int → String) (sp : scene_params) : List String :=
  (downFrom (sp.image_height - 1) 0).flatMap
    (fun j => (upTo sp.image_width).map (pixel j))

/-! ## Colours, rays and the scene -/

/-- Modelled from the spec: `vec3` of vec3.h (not among the sources), "three
floating-point channels"; `color` is the same type. -/
structure vec3 (K : Type) where
  x : K
  y : K
  z : K
deriving DecidableEq, Repr

/-- The alias `color` of `vec3`. -/
abbrev color (K : Type) : Type := vec3 K

/-- Modelled from the spec: `operator*(vec3, vec3)` of vec3.h, "attenuation is
multiplied elementwise". -/
def vec3.mul {K : Type} [Mul K] (u v : vec3 K) : vec3 K :=
  ⟨u.x * v.x, u.y * v.y, u.z * v.z⟩

/-- Modelled from the spec: `operator*(double, vec3)` of vec3.h, componentwise
scaling. -/
def vec3.smul {K : Type} [Mul K] (t : K) (v : vec3 K) : vec3 K :=
  ⟨t * v.x, t * v.y, t * v.z⟩

/-- Modelled from the spec: `operator+(vec3, vec3)` of vec3.h, componentwise
addition. -/
def vec3.add {K : Type} [Add K] (u v : vec3 K) : vec3 K :=
  ⟨u.x + v.x, u.y + v.y, u.z + v.z⟩

/-- Modelled from the spec: `ray` of ray.h (not among the sources), "origin
point + direction vector". -/
structure ray (K : Type) where
  origin : vec3 K
  direction : vec3 K
deriving DecidableEq, Repr

/-- The scene as `ray_color` uses it (hittable.h and material.h are not among
the sources, so both operations are parameters).  `hit r t_min t_max` is
`world.hit(r, t_min, t_max, rec)`: `some rec` for `true`; `t_max = none` is
`infinity`.  `scatter r rec` is `rec.mat_ptr->scatter(r, rec, attenuation,
scattered)`: `some (attenuation, scattered)` for `true`.  Both thread the
ambient state `σ` (the random generator behind `random_double`). -/
structure hittable (K ρ σ : Type) where
  hit : ray K → K → Option K → σ → Option ρ × σ
  scatter : ray K → ρ → σ → Option (color K × ray K) × σ

/-- Modelled from the spec: a scene with zero objects (hittable_list.h is not
among the sources), "`scene.hit` always reports no hit". -/
def empty_world (K σ : Type) : hittable K Unit σ :=
  ⟨fun _ _ _ g => (none, g), fun _ _ g => (none, g)⟩

/-- The result of `ray_color`: the colour returned and the ambient state after
the call, with ghost counters for the queries made and the nested calls. -/
structure shaded (K σ : Type) where
  value : color K
  state : σ
  hit_queries : Nat
  scatter_queries : Nat
  recursive_calls : Nat

/-! ## The shading kernel -/

/-- The shading kernel `ray_color(r, world, depth)`, run from the ambient state
`g`.  `unit_vector` (vec3.h) is a parameter. -/
def ray_color {K ρ σ : Type} [LinearOrderedField K] (unit_vector : vec3 K → vec3 K)
    (world : hittable K ρ σ) (r : ray K) (depth : Int) (g : σ) : shaded K σ :=
  if depth ≤ 0 then
    -- the ray bounce limit is exceeded, no more light is gathered
    ⟨⟨0, 0, 0⟩, g, 0, 0, 0⟩
  else
    match world.hit r (1 / 1000) none g with
    | (some rec, g1) =>
      match world.scatter r rec g1 with
      | (some (attenuation, scattered), g2) =>
        let inner := ray_color unit_vector world scattered (depth - 1) g2
        ⟨vec3.mul attenuation inner.value, inner.state, inner.hit_queries + 1,
          inner.scatter_queries + 1, inner.recursive_calls + 1⟩
      | (none, g2) => ⟨⟨0, 0, 0⟩, g2, 1, 1, 0⟩
    | (none, g1) =>
      let unit_direction := unit_vector r.direction
      let t := (1 / 2) * (unit_direction.y + 1)
      ⟨vec3.add (vec3.smul (1 - t) ⟨1, 1, 1⟩) (vec3.smul t ⟨1 / 2, 7 / 10, 1⟩),
        g1, 1, 0, 0⟩
termination_by depth.toNat
decreasing_by omega

/-! ## The colour encoder -/

/-- Modelled from the spec: `clamp` of rtweekend.h (not among the sources),
"Clamp each channel to `[0, 0.999]`": `x` limited to `[min, max]`. -/
def clamp {K : Type} [LinearOrderedField K] (x min max : K) : K :=
  if x < min then min else if x > max then max else x

/-- The conversion `static_cast<int>(x)` for a `double` `x`: truncation toward
zero. -/
def to_int {K : Type} [LinearOrderedField K] [FloorRing K] (x : K) : Int :=
  if 0 ≤ x then ⌊x⌋ else ⌈x⌉

/-- The integer `static_cast<int>(256 * clamp(sqrt(scale * c), 0.0, 0.999))`
with `scale = 1.0 / samples_per_pixel`, computed for each channel `c` by
`color_to_string` and by `write_color`. -/
def channel_int {K : Type} [LinearOrderedField K] [FloorRing K] (sqrt : K → K) (c : K)
    (samples_per_pixel : Int) : Int :=
  let scale := 1 / (samples_per_pixel : K)
  let r := sqrt (scale * c)
  to_int (256 * clamp r 0 (999 / 1000))

/-- The encoder `color_to_string(pixel_color, samples_per_pixel)`;
`std::to_string` on an `int` is the decimal numeral `toString`.  `sqrt` (cmath)
is a parameter. -/
def color_to_string {K : Type} [LinearOrderedField K] [FloorRing K] (sqrt : K → K)
    (pixel_color : color K) (samples_per_pixel : Int) : String :=
  let r_str := toString (channel_int sqrt pixel_color.x samples_per_pixel)
  let g_str := toString (channel_int sqrt pixel_color.y samples_per_pixel)
  let b_str := toString (channel_int sqrt pixel_color.z samples_per_pixel)
  r_str ++ " " ++ g_str ++ " " ++ b_str ++ "\n"

/-! ## The colour encoder in the words of the specification -/

/-- The sample-averaged colour `S / samples_per_pixel` of the spec's Row
Renderer ("scales the accumulator by `1/samplesPerPixel`"). -/
def sample_average {K : Type} [LinearOrderedField K] (S : color K) (samples_per_pixel : Int) :
    color K :=
  ⟨S.x / (samples_per_pixel : K), S.y / (samples_per_pixel : K), S.z / (samples_per_pixel : K)⟩

/-- The text of row `j`: columns `0 … w-1`. -/
def row_text (pixel : Int → Int → String) (w j : Int) : List String :=
  (upTo w).map (pixel j)

/-- The slot table has `n` slots of `w` entries each. -/
def slots_ok (outs : List (List String)) (n w : Nat) : Prop :=
  outs.length = n ∧ ∀ s ∈ outs, s.length = w

/-- The rows a batch with top row `j` and `m` members leaves in slots `0 … m-1`. -/
def batch_text (pixel : Int → Int → String) (w j : Int) (m : Nat) : List (List String) :=
  (List.range m).map (fun i : Nat => row_text pixel w (j - (i : Int)))

/-- Number of iterations of `for (int j = …; j >= 0; j -= N)` started at `j`. -/
def batch_count (N j : Int) : Nat :=
  ⌈((j + 1 : Int) : ℚ) / (N : ℚ)⌉.toNat

/-- The batches launched by the loop started at `j`, in closed form: batch `b`
has top row `j - N * b` and members `0 … min(N, top + 1) - 1`. -/
def batches_from (N : Int) (sp : scene_params) (j : Int) : List (List thread_params) :=
  (List.range (batch_count N j)).map (fun b : Nat =>
    (upTo (min N (j - N * (b : Int) + 1))).map (batch_member N sp (j - N * (b : Int))))

/-- The background gradient `(1-t)*(1,1,1) + t*(0.5,0.7,1.0)` with
`t = 0.5*(y+1)`, written out channel by channel. -/
def background {K : Type} [LinearOrderedField K] (y : K) : color K :=
  ⟨(1 - (1 / 2) * (y + 1)) * 1 + (1 / 2) * (y + 1) * (1 / 2),
   (1 - (1 / 2) * (y + 1)) * 1 + (1 / 2) * (y + 1) * (7 / 10),
   (1 - (1 / 2) * (y + 1)) * 1 + (1 / 2) * (y + 1) * 1⟩

/-! ## The stream-writing encoder -/

/-- Division of two `double` values with the divisor checked: `none` when the
divisor is zero. -/
def div_checked {K : Type} [LinearOrderedField K] (a b : K) : Option K :=
  if b = 0 then none else some (a / b)

/-- The coordinates `u = (i + random_double()) / (image_width - 1)` and
`v = (j + random_double()) / (image_height - 1)` that `thread_work`,
`one_line_thread` and `single_threaded` pass to `get_ray`, for the two jitter
values drawn; `none` when a divisor is zero. -/
def sample_uv {K : Type} [LinearOrderedField K] (image_width image_height i j : Int)
    (jitter_x jitter_y : K) : Option (K × K) :=
  (div_checked ((i : K) + jitter_x) ((image_width - 1 : Int) : K)).bind fun u =>
    (div_checked ((j : K) + jitter_y) ((image_height - 1 : Int) : K)).bind fun v =>
      some (u, v)

/-- The value `scale = 1.0 / samples_per_pixel` of `color_to_string` and
`write_color`; `none` when the divisor is zero. -/
def encoder_scale {K : Type} [LinearOrderedField K] (samples_per_pixel : Int) : Option K :=
  div_checked 1 (samples_per_pixel : K)

/-- The quotient `(double)image_height / N` of `thread_work`; `none` when the
divisor is zero. -/
def chunk_quotient (image_height N : Int) : Option ℚ :=
  div_checked (image_height : ℚ) (N : ℚ)

/-! ## The scheduler thread's actions on the workers, in program order -/

/-- What the scheduler thread of `multi_threaded` does to a worker thread or to
its slot: `threads[i] = std::thread(one_line_thread, tp)` with
`tp.thread_index = i`, `tp.line_index = line_index`; `threads[i].join()`; and
the read `for (auto s : thread_outputs[i])` of the flush. -/
inductive thread_event where
  | launch (thread_index line_index : Int)
  | join (thread_index : Int)
  | read (thread_index : Int)
deriving DecidableEq, Repr

/-- The actions of `multi_threaded` in program order, for the loop
`for (int j = …; j >= 0; j -= N)` started at `j`: per batch the launch loop,
then the join loop, then the print loop.  `fuel` bounds the number of
iterations; `none` means the fuel ran out. -/
def multi_threaded_events (N : Int) : Nat → Int → Option (List thread_event)
  | 0, j => if 0 ≤ j then none else some []
  | fuel + 1, j =>
    if 0 ≤ j then
      let num_threads := min N (j + 1)
      (multi_threaded_events N fuel (j - N)).map fun rest =>
        (upTo num_threads).map (fun i => thread_event.launch i (j - i))
          ++ (upTo num_threads).map thread_event.join
          ++ (upTo num_threads).map thread_event.read
          ++ rest
    else some []

/-- The workers as the scheduler knows them: `running` holds the `thread_index`
of every worker launched and not yet joined, `joined` the `thread_index` of
every worker joined and not launched again since. -/
structure thread_state where
  running : List Int
  joined : List Int
deriving DecidableEq, Repr

/-- One action against the contract of `std::thread` and the slot discipline:
a launch into `threads[i]` needs no running worker there, a join needs a
running worker, and a read of slot `i` needs the worker writing slot `i` to be
joined and not running; `none` when the action breaks this. -/
def thread_step (s : thread_state) : thread_event → Option thread_state
  | thread_event.launch i _ =>
    if i ∈ s.running then none
    else some ⟨i :: s.running, s.joined.filter (fun x => x ≠ i)⟩
  | thread_event.join i =>
    if i ∈ s.running then some ⟨s.running.filter (fun x => x ≠ i), i :: s.joined⟩
    else none
  | thread_event.read i =>
    if i ∈ s.joined ∧ i ∉ s.running then some s else none

/-- Replays a sequence of actions from a state; `none` when some action breaks
the discipline of `thread_step`. -/
def replay (s : thread_state) (events : List thread_event) : Option thread_state :=
  events.foldlM thread_step s

/-- The launches of a sequence of actions, as pairs
`(thread_index, line_index)`. -/
def launches (events : List thread_event) : List (Int × Int) :=
  events.filterMap fun e =>
    match e with
    | thread_event.launch i l => some (i, l)
    | _ => none

/-! ## The shading kernel as a loop, in the words of the specification -/

/-- The shading kernel as the explicit loop of the spec's design notes: an
accumulator, the current ray and the remaining budget.  While budget remains: on
a miss return `accumulator * background(ray)`; on a hit whose scatter fails
return black; on a hit whose scatter succeeds multiply the accumulator
elementwise by the attenuation, replace the ray by the scattered ray and
decrement the budget.  When the budget has reached 0 return black. -/
def ray_color_loop {K ρ σ : Type} [LinearOrderedField K] (unit_vector : vec3 K → vec3 K)
    (world : hittable K ρ σ) (accumulator : color K) (r : ray K) (budget : Int) (g : σ) :
    color K × σ :=
  if budget ≤ 0 then (⟨0, 0, 0⟩, g)
  else
    match world.hit r (1 / 1000) none g with
    | (none, g1) => (vec3.mul accumulator (background (unit_vector r.direction).y), g1)
    | (some rec, g1) =>
      match world.scatter r rec g1 with
      | (none, g2) => (⟨0, 0, 0⟩, g2)
      | (some (attenuation, scattered), g2) =>
        ray_color_loop unit_vector world (vec3.mul accumulator attenuation) scattered
          (budget - 1) g2
termination_by budget.toNat
decreasing_by omega

/-- The ray `r`, traced from the ambient state `g`, hits and scatters for `n`
bounces in a row. -/
def bounces {K ρ σ : Type} (world : hittable K ρ σ) (t_min : K) :
    Nat → ray K → σ → Prop
  | 0, _, _ => True
  | n + 1, r, g =>
    ∃ rec g1 attenuation scattered g2,
      world.hit r t_min none g = (some rec, g1)
      ∧ world.scatter r rec g1 = (some (attenuation, scattered), g2)
      ∧ bounces world t_min n scattered g2

/-! ## The sample loop of the row renderers -/

/-- One pass of the sample loop of `thread_work`, `one_line_thread` and
`single_threaded` for pixel `(j, i)`: two jitter values from `random_double`,
the coordinates `u` and `v`, the camera ray, and
`pixel_color += ray_color(r, world, max_depth)`.  `get_ray` (camera.h) and
`random_double` (rtweekend.h) are parameters threading the ambient state. -/
def add_sample {K ρ σ : Type} [LinearOrderedField K] (unit_vector : vec3 K → vec3 K)
    (world : hittable K ρ σ) (get_ray : K → K → σ → ray K × σ) (random_double : σ → K × σ)
    (image_width image_height max_depth i j : Int) (acc : color K × σ) : color K × σ :=
  let jitter_x := random_double acc.2
  let u := ((i : K) + jitter_x.1) / ((image_width - 1 : Int) : K)
  let jitter_y := random_double jitter_x.2
  let v := ((j : K) + jitter_y.1) / ((image_height - 1 : Int) : K)
  let r := get_ray u v jitter_y.2
  let sample := ray_color unit_vector world r.1 max_depth r.2
  (vec3.add acc.1 sample.value, sample.state)

/-- The sample loop `for (int s = 0; s < samples_per_pixel; ++s)` of the row
renderers, started with `pixel_color(0, 0, 0)`: the accumulated colour and the
ambient state after it. -/
def pixel_color_sum {K ρ σ : Type} [LinearOrderedField K] (unit_vector : vec3 K → vec3 K)
    (world : hittable K ρ σ) (get_ray : K → K → σ → ray K × σ) (random_double : σ → K × σ)
    (image_width image_height max_depth i j samples_per_pixel : Int) (g : σ) : color K × σ :=
  (upTo samples_per_pixel).foldl
    (fun acc _ => add_sample unit_vector world get_ray random_double image_width image_height
      max_depth i j acc)
    (⟨0, 0, 0⟩, g)

/-- Every channel of the colour lies in `[0, 1]`. -/
def in_unit_range {K : Type} [LinearOrderedField K] (c : color K) : Prop :=
  (0 ≤ c.x ∧ c.x ≤ 1) ∧ (0 ≤ c.y ∧ c.y ≤ 1) ∧ (0 ≤ c.z ∧ c.z ≤ 1)

/-! # Part II: theorems -/

/-! ## Lemmas on the loop ranges -/

theorem upTo_eq (n : Int) : upTo n = (List.range n.toNat).map (fun k : Nat => (k : Int)) := rfl

theorem length_upTo (n : Int) : (upTo n).length = n.toNat := by
  simp [upTo]

theorem length_downFrom (top bottom : Int) :
    (downFrom top bottom).length = (top - bottom + 1).toNat := by
  simp [downFrom]

theorem mem_upTo {n x : Int} : x ∈ upTo n ↔ 0 ≤ x ∧ x < n := by
  simp only [upTo, List.mem_map, List.mem_range]
  constructor
  · rintro ⟨k, hk, rfl⟩
    omega
  · rintro ⟨h0, h1⟩
    exact ⟨x.toNat, by omega, by omega⟩

theorem mem_downFrom {top bottom x : Int} : x ∈ downFrom top bottom ↔ bottom ≤ x ∧ x ≤ top := by
  simp only [downFrom, List.mem_map, List.mem_range]
  constructor
  · rintro ⟨k, hk, rfl⟩
    omega
  · rintro ⟨h0, h1⟩
    exact ⟨(top - x).toNat, by omega, by omega⟩

theorem nodup_downFrom (top bottom : Int) : (downFrom top bottom).Nodup := by
  unfold downFrom
  refine List.Nodup.map ?_ (List.nodup_range _)
  intro a b hab
  have : top - (a : Int) = top - (b : Int) := hab
  omega

theorem downFrom_eq_nil {top bottom : Int} (h : top < bottom) : downFrom top bottom = [] := by
  have : (top - bottom + 1).toNat = 0 := by omega
  simp [downFrom, this]

/-- Splitting a descending range at `mid`. -/
theorem downFrom_append (top mid bottom : Int) (h1 : bottom ≤ mid + 1) (h2 : mid ≤ top) :
    downFrom top (mid + 1) ++ downFrom mid bottom = downFrom top bottom := by
  unfold downFrom
  have e : (top - bottom + 1).toNat = (top - (mid + 1) + 1).toNat + (mid - bottom + 1).toNat := by
    omega
  rw [e, List.range_add, List.map_append, List.map_map]
  congr 1
  apply List.map_congr_left
  intro k _
  simp only [Function.comp]
  push_cast
  omega

/-! ## The row renderer `one_line_thread` fills exactly its own slot -/

theorem length_row_text (pixel : Int → Int → String) (w j : Int) :
    (row_text pixel w j).length = w.toNat := by
  simp [row_text, length_upTo]

theorem set_eq_self_of_getElem? {α : Type} {l : List α} {n : Nat} {a : α}
    (h : l[n]? = some a) : l.set n a = l := by
  apply List.ext_getElem?
  intro m
  by_cases hm : n = m
  · subst hm
    rw [List.getElem?_set_self', h]
    rfl
  · rw [List.getElem?_set_ne hm]

theorem one_line_thread_prefix (pixel : Int → Int → String) (t j : Int)
    (outs : List (List String)) (slot : List String) (ht0 : 0 ≤ t)
    (ht : t.toNat < outs.length) (hslot : outs[t.toNat]? = some slot) :
    ∀ n : Nat, n ≤ slot.length →
      ((List.range n).map (fun k : Nat => (k : Int))).foldlM
          (fun o i => slot_store o t i (pixel j i)) outs
        = some (outs.set t.toNat
            ((List.range n).map (fun k : Nat => pixel j (k : Int)) ++ slot.drop n)) := by
  intro n
  induction n with
  | zero =>
    intro _
    simp only [List.range_zero, List.map_nil, List.foldlM_nil, List.nil_append, List.drop_zero,
      pure]
    rw [set_eq_self_of_getElem? hslot]
  | succ n ih =>
    intro hn
    have ih1 := ih (by omega)
    rw [List.range_succ, List.map_append, List.foldlM_append, ih1]
    simp only [List.map_cons, List.map_nil, List.foldlM_cons, List.foldlM_nil,
      Option.some_bind, Option.bind_eq_bind]
    have hlen : (outs.set t.toNat
        ((List.range n).map (fun k : Nat => pixel j (k : Int)) ++ slot.drop n)).length
          = outs.length := by simp
    have hget : (outs.set t.toNat
        ((List.range n).map (fun k : Nat => pixel j (k : Int)) ++ slot.drop n)).getD t.toNat []
          = (List.range n).map (fun k : Nat => pixel j (k : Int)) ++ slot.drop n := by
      simp [List.getD_eq_getElem?_getD, ht]
    unfold slot_store
    rw [if_pos ⟨ht0, by rw [hlen]; omega⟩]
    simp only [hget]
    rw [if_pos ⟨by omega, by simp; omega⟩]
    simp only [pure, Option.some.injEq, Int.toNat_ofNat, List.set_set]
    rw [List.set_append_right _ _ (by simp)]
    simp only [List.length_map, List.length_range, Nat.sub_self]
    rw [List.drop_eq_getElem_cons (by omega : n < slot.length)]
    simp only [List.set_cons_zero, List.append_assoc, List.singleton_append, List.map_append,
      List.map_cons, List.map_nil, Option.some_bind]

/-- With a slot of `image_width` entries at `thread_index`, `one_line_thread`
succeeds and replaces that slot by the text of row `line_index`. -/
theorem one_line_thread_ok (pixel : Int → Int → String) (tp : thread_params)
    (outs : List (List String)) (slot : List String) (ht0 : 0 ≤ tp.thread_index)
    (ht : tp.thread_index.toNat < outs.length)
    (hslot : outs[tp.thread_index.toNat]? = some slot)
    (hw : slot.length = tp.image_width.toNat) :
    one_line_thread pixel tp outs
      = some (outs.set tp.thread_index.toNat (row_text pixel tp.image_width tp.line_index)) := by
  have h := one_line_thread_prefix pixel tp.thread_index tp.line_index outs slot ht0 ht hslot
    tp.image_width.toNat (le_of_eq hw.symm)
  unfold one_line_thread
  rw [upTo_eq, h, List.drop_eq_nil_of_le (le_of_eq hw), List.append_nil]
  simp only [row_text, upTo_eq, List.map_map, Function.comp_def]

/-! ## One batch of `multi_threaded` -/

theorem slots_ok_replicate (n w : Nat) :
    slots_ok (List.replicate n (List.replicate w "")) n w := by
  refine ⟨by simp, ?_⟩
  intro s hs
  rw [List.eq_of_mem_replicate hs]
  simp

theorem length_batch_text (pixel : Int → Int → String) (w j : Int) (m : Nat) :
    (batch_text pixel w j m).length = m := by
  simp [batch_text]

theorem launch_prefix (pixel : Int → Int → String) (N : Int) (sp : scene_params) (j : Int)
    (outs : List (List String)) (n : Nat)
    (hok : slots_ok outs n sp.image_width.toNat) :
    ∀ m : Nat, m ≤ n →
      (((List.range m).map (fun k : Nat => (k : Int))).map (batch_member N sp j)).foldlM
          (fun o tp => one_line_thread pixel tp o) outs
        = some (batch_text pixel sp.image_width j m ++ outs.drop m) := by
  intro m
  induction m with
  | zero =>
    intro _
    simp [batch_text]
  | succ m ih =>
    intro hm
    have hm1 : m < outs.length := by rw [hok.1]; omega
    rw [List.range_succ, List.map_append, List.map_append, List.foldlM_append, ih (by omega)]
    simp only [List.map_cons, List.map_nil, List.foldlM_cons, List.foldlM_nil,
      Option.some_bind, Option.bind_eq_bind]
    have hlenA := length_batch_text pixel sp.image_width j m
    have hslot : (batch_text pixel sp.image_width j m ++ outs.drop m)[m]? = some outs[m] := by
      rw [List.getElem?_append_right (by omega), hlenA, Nat.sub_self, List.getElem?_drop]
      simp [hm1]
    have h := one_line_thread_ok pixel (batch_member N sp j (m : Int))
      (batch_text pixel sp.image_width j m ++ outs.drop m) outs[m]
      (by simp [batch_member]) (by simp [batch_member, hlenA]; omega)
      (by simpa [batch_member] using hslot)
      (by simpa [batch_member] using hok.2 _ (List.getElem_mem hm1))
    rw [h]
    simp only [batch_member, Int.toNat_ofNat, Option.some_bind, pure, Option.some.injEq]
    rw [List.set_append_right _ _ (by omega), hlenA, Nat.sub_self,
      List.drop_eq_getElem_cons hm1]
    simp only [List.set_cons_zero, batch_text, List.range_succ, List.map_append, List.map_cons,
      List.map_nil, List.append_assoc, List.singleton_append]

theorem slots_ok_after_batch (pixel : Int → Int → String) (w j : Int)
    (outs : List (List String)) (n m : Nat) (hm : m ≤ n) (hok : slots_ok outs n w.toNat) :
    slots_ok (batch_text pixel w j m ++ outs.drop m) n w.toNat := by
  refine ⟨by simp [length_batch_text, hok.1]; omega, ?_⟩
  intro s hs
  rcases List.mem_append.1 hs with h | h
  · simp only [batch_text, List.mem_map, List.mem_range] at h
    obtain ⟨i, _, rfl⟩ := h
    exact length_row_text _ _ _
  · exact hok.2 s (List.mem_of_mem_drop h)

theorem mapM_eq_some_map {α β : Type} (f : α → Option β) (g : α → β) :
    ∀ l : List α, (∀ x ∈ l, f x = some (g x)) → l.mapM f = some (l.map g)
  | [], _ => by
    rw [List.mapM_nil]
    rfl
  | a :: l, h => by
    have ha := h a (List.mem_cons_self _ _)
    have hl := mapM_eq_some_map f g l (fun x hx => h x (List.mem_cons_of_mem _ hx))
    rw [List.mapM_cons, ha, hl]
    rfl

/-- Printing slots `0 … m-1` after a batch of `m` members reads back the batch's rows. -/
theorem flush_batch (A B : List (List String)) (m : Nat) (hA : A.length = m) :
    ((List.range m).map (fun k : Nat => (k : Int))).mapM (slot_load (A ++ B)) = some A := by
  have h := mapM_eq_some_map (slot_load (A ++ B)) (fun i : Int => (A ++ B).getD i.toNat [])
    ((List.range m).map (fun k : Nat => (k : Int))) (by
      intro x hx
      simp only [List.mem_map, List.mem_range] at hx
      obtain ⟨k, hk, rfl⟩ := hx
      have hk2 : k < (A ++ B).length := by simp; omega
      simp [slot_load, List.getD_eq_getElem?_getD, List.getElem?_eq_getElem hk2])
  rw [h]
  congr 1
  apply List.ext_getElem
  · simp [hA]
  · intro i h1 h2
    simp only [List.length_map, List.length_range] at h1
    simp [List.getD_eq_getElem?_getD, List.getElem?_append_left h2, List.getElem?_eq_getElem h2]

/-! ## The whole run of `multi_threaded` -/

theorem batch_count_of_neg (N j : Int) (hN : 1 ≤ N) (hj : j < 0) : batch_count N j = 0 := by
  unfold batch_count
  have hNq : (0 : ℚ) < (N : ℚ) := by exact_mod_cast (by omega : (0 : Int) < N)
  have h1 : ((j + 1 : Int) : ℚ) ≤ 0 := by exact_mod_cast (by omega : j + 1 ≤ 0)
  have h2 : ⌈((j + 1 : Int) : ℚ) / (N : ℚ)⌉ ≤ 0 := by
    rw [Int.ceil_le]
    simpa using div_nonpos_of_nonpos_of_nonneg h1 hNq.le
  omega

theorem batch_count_step (N j : Int) (hN : 1 ≤ N) (hj : 0 ≤ j) :
    batch_count N j = batch_count N (j - N) + 1 := by
  unfold batch_count
  have hNq : (0 : ℚ) < (N : ℚ) := by exact_mod_cast (by omega : (0 : Int) < N)
  have e : ((j + 1 : Int) : ℚ) / (N : ℚ) = ((j - N + 1 : Int) : ℚ) / (N : ℚ) + 1 := by
    push_cast
    field_simp
    ring
  have h0 : (-1 : Int) < ⌈((j - N + 1 : Int) : ℚ) / (N : ℚ)⌉ := by
    rw [Int.lt_ceil]
    have : (-(N : ℚ)) < ((j - N + 1 : Int) : ℚ) := by
      exact_mod_cast (by omega : -N < j - N + 1)
    rw [lt_div_iff₀ hNq]
    push_cast at this ⊢
    linarith
  rw [e, Int.ceil_add_one]
  omega

theorem downFrom_batch_split (N j : Int) (hN : 1 ≤ N) (hj : 0 ≤ j) :
    downFrom j 0
      = (List.range (min N (j + 1)).toNat).map (fun i : Nat => j - (i : Int))
          ++ downFrom (j - N) 0 := by
  have h1 := downFrom_append j (j - (min N (j + 1))) 0
    (by omega) (by omega)
  rw [← h1]
  congr 1
  · unfold downFrom
    have : (j - (j - min N (j + 1) + 1) + 1).toNat = (min N (j + 1)).toNat := by omega
    rw [this]
  · rcases le_or_lt N (j + 1) with h | h
    · rw [min_eq_left h]
    · rw [min_eq_right h.le, downFrom_eq_nil (by omega), downFrom_eq_nil (by omega)]

theorem flatten_batch_text (pixel : Int → Int → String) (w j : Int) (m : Nat) :
    (batch_text pixel w j m).flatten
      = ((List.range m).map (fun i : Nat => j - (i : Int))).flatMap (row_text pixel w) := by
  simp [batch_text, List.flatMap, List.map_map, Function.comp_def]

theorem multi_threaded_loop_spec (pixel : Int → Int → String) (N : Int) (sp : scene_params)
    (hN : 1 ≤ N) :
    ∀ (fuel : Nat) (j : Int) (outs : List (List String)),
      j + 1 ≤ (fuel : Int) → slots_ok outs N.toNat sp.image_width.toNat →
      ∃ outs1, multi_threaded_loop pixel N sp fuel j outs
        = some ⟨(downFrom j 0).flatMap (row_text pixel sp.image_width), outs1,
                batches_from N sp j⟩ := by
  intro fuel
  induction fuel with
  | zero =>
    intro j outs hj _
    have hneg : j < 0 := by omega
    refine ⟨outs, ?_⟩
    simp [multi_threaded_loop, not_le.2 hneg, downFrom_eq_nil hneg, batches_from,
      batch_count_of_neg N j hN hneg]
  | succ fuel ih =>
    intro j outs hj hok
    rcases lt_or_le j 0 with hneg | hpos
    · refine ⟨outs, ?_⟩
      simp [multi_threaded_loop, not_le.2 hneg, downFrom_eq_nil hneg, batches_from,
        batch_count_of_neg N j hN hneg]
    · have hm : (min N (j + 1)).toNat ≤ N.toNat := by omega
      have h1 := launch_prefix pixel N sp j outs N.toNat hok _ hm
      rw [← upTo_eq] at h1
      have h2 := flush_batch (batch_text pixel sp.image_width j (min N (j + 1)).toNat)
        (outs.drop (min N (j + 1)).toNat) _ (length_batch_text _ _ _ _)
      rw [← upTo_eq] at h2
      obtain ⟨outs2, h3⟩ := ih (j - N) _ (by push_cast at hj ⊢; omega)
        (slots_ok_after_batch pixel sp.image_width j outs N.toNat _ hm hok)
      refine ⟨outs2, ?_⟩
      simp only [multi_threaded_loop, if_pos hpos, h1, h2, h3, Option.bind_eq_bind,
        Option.some_bind, Option.some.injEq, render_log.mk.injEq, true_and]
      constructor
      · rw [flatten_batch_text, downFrom_batch_split N j hN hpos, List.flatMap_append]
      · unfold batches_from
        rw [batch_count_step N j hN hpos, List.range_succ_eq_map, List.map_cons, List.map_map]
        simp only [Nat.cast_zero, mul_zero, sub_zero, List.cons.injEq, true_and]
        apply List.map_congr_left
        intro b _
        simp only [Function.comp, Nat.succ_eq_add_one]
        have e : j - N - N * (b : Int) = j - N * ((b + 1 : Nat) : Int) := by
          push_cast
          ring
        rw [e]

/-! ## Position of a pixel in the output -/

theorem getElem?_flatMap_uniform {α β : Type} (f : α → List β) (w : Nat)
    (hf : ∀ x, (f x).length = w) :
    ∀ (L : List α) (r c : Nat), c < w →
      (L.flatMap f)[r * w + c]? = (L[r]?).bind (fun x => (f x)[c]?)
  | [], r, c, _ => by simp
  | a :: L, 0, c, hc => by
    rw [List.flatMap_cons, Nat.zero_mul, Nat.zero_add,
      List.getElem?_append_left (by rw [hf]; exact hc)]
    simp
  | a :: L, r + 1, c, hc => by
    rw [List.flatMap_cons, List.getElem?_append_right (by rw [hf, Nat.succ_mul]; omega), hf]
    have e : (r + 1) * w + c - w = r * w + c := by rw [Nat.succ_mul]; omega
    rw [e, getElem?_flatMap_uniform f w hf L r c hc]
    simp

theorem getElem?_downFrom (top bottom : Int) (r : Nat) (h : (r : Int) ≤ top - bottom) :
    (downFrom top bottom)[r]? = some (top - (r : Int)) := by
  unfold downFrom
  rw [List.getElem?_map, List.getElem?_range (by omega)]
  rfl

theorem getElem?_row_text (pixel : Int → Int → String) (w j : Int) (c : Nat)
    (h : (c : Int) < w) : (row_text pixel w j)[c]? = some (pixel j (c : Int)) := by
  unfold row_text upTo
  rw [List.getElem?_map, List.getElem?_map, List.getElem?_range (by omega)]
  rfl

theorem single_threaded_eq (pixel : Int → Int → String) (sp : scene_params) :
    single_threaded pixel sp
      = (downFrom (sp.image_height - 1) 0).flatMap (row_text pixel sp.image_width) := rfl

theorem length_flatMap_uniform {α β : Type} (f : α → List β) (w : Nat)
    (hf : ∀ x, (f x).length = w) : ∀ L : List α, (L.flatMap f).length = L.length * w
  | [] => by simp
  | a :: L => by
    rw [List.flatMap_cons, List.length_append, hf, length_flatMap_uniform f w hf L,
      List.length_cons, Nat.succ_mul, Nat.add_comm]

theorem length_single_threaded (pixel : Int → Int → String) (sp : scene_params)
    (hw : 0 ≤ sp.image_width) (hh : 0 ≤ sp.image_height) :
    (single_threaded pixel sp).length = (sp.image_width * sp.image_height).toNat := by
  rw [single_threaded_eq, length_flatMap_uniform _ sp.image_width.toNat
    (length_row_text pixel sp.image_width), length_downFrom]
  have e : (sp.image_height - 1 - 0 + 1).toNat = sp.image_height.toNat := by omega
  rw [e]
  obtain ⟨a, ha⟩ := Int.eq_ofNat_of_zero_le hw
  obtain ⟨b, hb⟩ := Int.eq_ofNat_of_zero_le hh
  rw [ha, hb, ← Int.natCast_mul, Int.toNat_ofNat, Int.toNat_ofNat, Int.toNat_ofNat, Nat.mul_comm]

theorem single_threaded_getElem? (pixel : Int → Int → String) (sp : scene_params)
    (r c : Nat) (hr : (r : Int) < sp.image_height) (hc : (c : Int) < sp.image_width) :
    (single_threaded pixel sp)[r * sp.image_width.toNat + c]?
      = some (pixel (sp.image_height - 1 - (r : Int)) (c : Int)) := by
  rw [single_threaded_eq, getElem?_flatMap_uniform _ sp.image_width.toNat
    (length_row_text pixel sp.image_width) _ r c (by omega),
    getElem?_downFrom _ _ r (by omega)]
  simp only [Option.some_bind]
  exact getElem?_row_text pixel _ _ c hc

theorem multi_threaded_spec (pixel : Int → Int → String) (N : Int) (sp : scene_params)
    (fuel : Nat) (hw : 0 ≤ sp.image_width) (hN : 1 ≤ N)
    (hfuel : sp.image_height ≤ (fuel : Int)) :
    ∃ outs1, multi_threaded pixel fuel N sp
      = some ⟨single_threaded pixel sp, outs1, batches_from N sp (sp.image_height - 1)⟩ := by
  unfold multi_threaded
  rw [if_pos ⟨by omega, hw⟩]
  exact multi_threaded_loop_spec pixel N sp hN fuel (sp.image_height - 1) _ (by omega)
    (slots_ok_replicate _ _)

/-! ## Claims on the row-interleaved scheduler -/

/-- Claim C1. For `image_width ≥ 0`, `image_height ≥ 0` and `N ≥ 1`, with the pixel
computation a function of (row, column) and enough fuel for the batch loop
(`image_height` iterations suffice), `multi_threaded` terminates without leaving
the slot table and the text it flushes to `std::cout` is the text
`single_threaded` writes.  That text has `image_width * image_height` lines, and
the line at position `r * image_width + c` is pixel
`(image_height - 1 - r, c)`: rows descend from `image_height - 1` to `0` and
columns ascend from `0` to `image_width - 1` inside each row. -/
theorem multi_threaded_cout_eq_single_threaded (pixel : Int → Int → String) (N : Int)
    (sp : scene_params) (fuel : Nat) (hw : 0 ≤ sp.image_width) (hh : 0 ≤ sp.image_height)
    (hN : 1 ≤ N) (hfuel : sp.image_height ≤ (fuel : Int)) :
    (multi_threaded pixel fuel N sp).map render_log.cout = some (single_threaded pixel sp)
    ∧ (single_threaded pixel sp).length = (sp.image_width * sp.image_height).toNat
    ∧ ∀ r c : Nat, (r : Int) < sp.image_height → (c : Int) < sp.image_width →
        (single_threaded pixel sp)[r * sp.image_width.toNat + c]?
          = some (pixel (sp.image_height - 1 - (r : Int)) (c : Int)) := by
  refine ⟨?_, length_single_threaded pixel sp hw hh, ?_⟩
  · obtain ⟨outs1, h⟩ := multi_threaded_spec pixel N sp fuel hw hN hfuel
    rw [h]
    rfl
  · intro r c hr hc
    exact single_threaded_getElem? pixel sp r c hr hc

/-- Witness for C1: width 2, height 1, one unit of fuel, with two workers and
with one worker: the same two lines.  Last line: width 1, height 3, two
workers; at the end slot 1 still holds row 1 of the first batch, which the
second batch (one member) did not flush again. -/
theorem multi_threaded_cout_eq_single_threaded_witness :
    (multi_threaded (fun j i => toString j ++ " " ++ toString i) 1 2 ⟨1, 2, 1, 50⟩).map
        render_log.cout
      = some (single_threaded (fun j i => toString j ++ " " ++ toString i) ⟨1, 2, 1, 50⟩)
    ∧ (multi_threaded (fun j i => toString j ++ " " ++ toString i) 1 1 ⟨1, 2, 1, 50⟩).map
        render_log.cout
      = some (single_threaded (fun j i => toString j ++ " " ++ toString i) ⟨1, 2, 1, 50⟩)
    ∧ (single_threaded (fun j i => toString j ++ " " ++ toString i) ⟨1, 2, 1, 50⟩).length = 2
    ∧ single_threaded (fun j i => toString j ++ " " ++ toString i) ⟨1, 2, 1, 50⟩
      = ["0 0", "0 1"]
    ∧ (multi_threaded (fun j i => toString j ++ " " ++ toString i) 3 2 ⟨1, 1, 3, 50⟩).map
        (fun log => (log.cout, log.thread_outputs))
      = some (["2 0", "1 0", "0 0"], [["0 0"], ["1 0"]]) :=
  ⟨(multi_threaded_cout_eq_single_threaded (fun j i => toString j ++ " " ++ toString i) 2
      ⟨1, 2, 1, 50⟩ 1 (by decide) (by decide) (by decide) (by decide)).1,
   (multi_threaded_cout_eq_single_threaded (fun j i => toString j ++ " " ++ toString i) 1
      ⟨1, 2, 1, 50⟩ 1 (by decide) (by decide) (by decide) (by decide)).1,
   (multi_threaded_cout_eq_single_threaded (fun j i => toString j ++ " " ++ toString i) 2
      ⟨1, 2, 1, 50⟩ 1 (by decide) (by decide) (by decide) (by decide)).2.1,
   by decide, by decide⟩

theorem batches_from_of_neg (N : Int) (sp : scene_params) (j : Int) (hN : 1 ≤ N) (hj : j < 0) :
    batches_from N sp j = [] := by
  simp [batches_from, batch_count_of_neg N j hN hj]

theorem batches_from_step (N : Int) (sp : scene_params) (j : Int) (hN : 1 ≤ N) (hj : 0 ≤ j) :
    batches_from N sp j
      = (upTo (min N (j + 1))).map (batch_member N sp j) :: batches_from N sp (j - N) := by
  unfold batches_from
  rw [batch_count_step N j hN hj, List.range_succ_eq_map, List.map_cons, List.map_map]
  simp only [Nat.cast_zero, mul_zero, sub_zero, List.cons.injEq, true_and]
  apply List.map_congr_left
  intro b _
  simp only [Function.comp, Nat.succ_eq_add_one]
  have e : j - N - N * (b : Int) = j - N * ((b + 1 : Nat) : Int) := by
    push_cast
    ring
  rw [e]

/-- The rows assigned by the batches started at `j` are `j, j-1, …, 0`. -/
theorem line_index_batches_from (N : Int) (sp : scene_params) (hN : 1 ≤ N) :
    ∀ (n : Nat) (j : Int), j + 1 ≤ (n : Int) →
      (batches_from N sp j).flatten.map thread_params.line_index = downFrom j 0 := by
  intro n
  induction n with
  | zero =>
    intro j hj
    have hneg : j < 0 := by omega
    rw [batches_from_of_neg N sp j hN hneg, downFrom_eq_nil hneg]
    rfl
  | succ n ih =>
    intro j hj
    rcases lt_or_le j 0 with hneg | hpos
    · rw [batches_from_of_neg N sp j hN hneg, downFrom_eq_nil hneg]
      rfl
    · rw [batches_from_step N sp j hN hpos, List.flatten_cons, List.map_append,
        ih (j - N) (by push_cast at hj ⊢; omega), downFrom_batch_split N j hN hpos]
      congr 1
      simp [upTo, List.map_map, Function.comp_def, batch_member]

/-- Claim C2. For `N ≥ 1`, any `image_height` (in particular `image_height ≥ 0`)
and enough fuel, the run of
`multi_threaded` exists whenever the slot table can be allocated
(`image_width ≥ 0`), and the `line_index` values of the workers it launches over
the whole run contain every scanline index of `[0, image_height)` exactly once
and no other index. -/
theorem multi_threaded_line_index_cover (pixel : Int → Int → String) (N : Int)
    (sp : scene_params) (fuel : Nat) (hN : 1 ≤ N)
    (hfuel : sp.image_height ≤ (fuel : Int)) :
    (0 ≤ sp.image_width → (multi_threaded pixel fuel N sp).isSome = true)
    ∧ ∀ log, multi_threaded pixel fuel N sp = some log →
        (∀ x : Int, 0 ≤ x → x < sp.image_height →
          (log.batches.flatten.map thread_params.line_index).count x = 1)
        ∧ (∀ x ∈ log.batches.flatten.map thread_params.line_index,
            0 ≤ x ∧ x < sp.image_height) := by
  constructor
  · intro hw
    obtain ⟨outs1, h⟩ := multi_threaded_spec pixel N sp fuel hw hN hfuel
    rw [h]
    rfl
  · intro log hlog
    have hw : 0 ≤ sp.image_width := by
      by_contra hneg
      simp [multi_threaded, hneg] at hlog
    obtain ⟨outs1, h⟩ := multi_threaded_spec pixel N sp fuel hw hN hfuel
    rw [h] at hlog
    have hb : log.batches = batches_from N sp (sp.image_height - 1) := by
      rw [← Option.some.inj hlog]
    have hl := line_index_batches_from N sp hN fuel (sp.image_height - 1) (by omega)
    rw [hb, hl]
    constructor
    · intro x hx0 hx1
      exact List.count_eq_one_of_mem (nodup_downFrom _ _) (mem_downFrom.2 ⟨hx0, by omega⟩)
    · intro x hx
      have := mem_downFrom.1 hx
      omega

/-- Witness for C2: height 3, two workers, width 1. -/
theorem multi_threaded_line_index_cover_witness :
    (multi_threaded (fun _ _ => "p") 3 2 ⟨1, 1, 3, 50⟩).isSome = true
    ∧ (multi_threaded (fun _ _ => "p") 3 2 ⟨1, 1, 3, 50⟩).map
        (fun log => log.batches.flatten.map thread_params.line_index) = some [2, 1, 0] :=
  ⟨(multi_threaded_line_index_cover (fun _ _ => "p") 2 ⟨1, 1, 3, 50⟩ 3 (by decide)
      (by decide)).1 (by decide), by decide⟩

/-! ## The chunked partition of `thread_work` -/

theorem thread_chunk_size_spec (tp : thread_params) (hN : 1 ≤ tp.N) :
    tp.image_height ≤ thread_chunk_size tp * tp.N
    ∧ (thread_chunk_size tp - 1) * tp.N < tp.image_height := by
  have hNq : (0 : ℚ) < (tp.N : ℚ) := by exact_mod_cast (by omega : (0 : Int) < tp.N)
  constructor
  · have h := Int.le_ceil ((tp.image_height : ℚ) / (tp.N : ℚ))
    rw [div_le_iff₀ hNq] at h
    unfold thread_chunk_size
    exact_mod_cast h
  · have h := Int.ceil_lt_add_one ((tp.image_height : ℚ) / (tp.N : ℚ))
    have h2 : ((thread_chunk_size tp - 1 : Int) : ℚ) < (tp.image_height : ℚ) / (tp.N : ℚ) := by
      unfold thread_chunk_size
      push_cast
      linarith
    rw [lt_div_iff₀ hNq] at h2
    exact_mod_cast h2

theorem thread_chunk_size_nonneg (tp : thread_params) (hh : 0 ≤ tp.image_height)
    (hN : 1 ≤ tp.N) : 0 ≤ thread_chunk_size tp := by
  have hNq : (0 : ℚ) ≤ (tp.N : ℚ) := by exact_mod_cast (by omega : (0 : Int) ≤ tp.N)
  have hhq : (0 : ℚ) ≤ (tp.image_height : ℚ) := by exact_mod_cast hh
  exact Int.ceil_nonneg (div_nonneg hhq hNq)

/-- For workers `0 … N-1` the products formed by `thread_work` lie between `0`
and `image_height + N`. -/
theorem thread_work_products_bounded (tp : thread_params) (hh : 0 ≤ tp.image_height)
    (hN : 1 ≤ tp.N) (k : Int) (hk0 : 0 ≤ k) (hk1 : k < tp.N) :
    0 ≤ thread_chunk_size tp * k
    ∧ thread_chunk_size tp * k ≤ thread_chunk_size tp * (k + 1)
    ∧ thread_chunk_size tp * (k + 1) < tp.image_height + tp.N := by
  have hc0 := thread_chunk_size_nonneg tp hh hN
  have hs := (thread_chunk_size_spec tp hN).2
  have h1 : thread_chunk_size tp * (k + 1) ≤ thread_chunk_size tp * tp.N :=
    Int.mul_le_mul_of_nonneg_left (by omega) hc0
  have h2 : (thread_chunk_size tp - 1) * tp.N = thread_chunk_size tp * tp.N - tp.N := by ring
  have h3 : thread_chunk_size tp * (k + 1) = thread_chunk_size tp * k + thread_chunk_size tp := by
    ring
  exact ⟨mul_nonneg hc0 hk0, by omega, by omega⟩

theorem batch_count_cast (N h : Int) (hh : 0 ≤ h) (hN : 1 ≤ N) :
    ((batch_count N (h - 1) : Nat) : Int) = ⌈(h : ℚ) / (N : ℚ)⌉ := by
  unfold batch_count
  have e : h - 1 + 1 = h := by omega
  rw [e]
  have hNq : (0 : ℚ) ≤ (N : ℚ) := by exact_mod_cast (by omega : (0 : Int) ≤ N)
  have hhq : (0 : ℚ) ≤ (h : ℚ) := by exact_mod_cast hh
  exact Int.toNat_of_nonneg (Int.ceil_nonneg (div_nonneg hhq hNq))

theorem getElem?_batches_from (N : Int) (sp : scene_params) (j : Int) (b : Nat)
    (hb : b < batch_count N j) :
    (batches_from N sp j)[b]?
      = some ((upTo (min N (j - N * (b : Int) + 1))).map (batch_member N sp (j - N * (b : Int)))) := by
  unfold batches_from
  rw [List.getElem?_map, List.getElem?_range hb]
  rfl

theorem length_batches_from (N : Int) (sp : scene_params) (j : Int) :
    (batches_from N sp j).length = batch_count N j := by
  simp [batches_from]

/-- A batch that is not the last one has room for `N` members. -/
theorem full_batch_of_not_last (N h : Int) (hh : 0 ≤ h) (hN : 1 ≤ N) (b : Nat)
    (hb : b + 1 < batch_count N (h - 1)) : N ≤ h - 1 - N * (b : Int) + 1 := by
  have hc := batch_count_cast N h hh hN
  have hs := (thread_chunk_size_spec ⟨0, 0, 0, 0, h, 0, N⟩ hN).2
  have hs2 : (⌈(h : ℚ) / (N : ℚ)⌉ - 1) * N < h := hs
  rw [← hc] at hs2
  have h1 : ((b : Int) + 1) * N ≤ ((batch_count N (h - 1) : Nat) - 1 : Int) * N :=
    Int.mul_le_mul_of_nonneg_right (by omega) (by omega)
  have h2 : ((b : Int) + 1) * N = N * (b : Int) + N := by ring
  omega

theorem sum_length_batches_from (N : Int) (sp : scene_params) (hN : 1 ≤ N) (h : Int)
    (hh : 0 ≤ h) :
    (((batches_from N sp (h - 1)).map List.length).sum : Int) = h := by
  have h1 := line_index_batches_from N sp hN h.toNat (h - 1) (by omega)
  have h2 := congrArg List.length h1
  rw [List.length_map, List.length_flatten, length_downFrom] at h2
  rw [h2]
  omega

/-- Claim C5. For `image_height ≥ 0` (in particular `≥ 1`), `N ≥ 1` and enough fuel,
the run of `multi_threaded` exists whenever `image_width ≥ 0`, and its batches
satisfy: there are exactly `ceil(image_height / N)` of them; batch `b` has top
row `currentTop = image_height - 1 - N*b` and consists of the workers
`i = 0 … min(N, currentTop + 1) - 1`, worker `i` having `thread_index = i` and
`line_index = currentTop - i`; every batch but the last has `N` members; and the
batch sizes sum to `image_height`. -/
theorem multi_threaded_batches (pixel : Int → Int → String) (N : Int) (sp : scene_params)
    (fuel : Nat) (hh : 0 ≤ sp.image_height) (hN : 1 ≤ N)
    (hfuel : sp.image_height ≤ (fuel : Int)) :
    (0 ≤ sp.image_width → (multi_threaded pixel fuel N sp).isSome = true)
    ∧ ∀ log, multi_threaded pixel fuel N sp = some log →
        (log.batches.length : Int) = ⌈(sp.image_height : ℚ) / (N : ℚ)⌉
        ∧ (∀ b : Nat, b < log.batches.length →
            ∃ batch, log.batches[b]? = some batch
              ∧ (batch.length : Int) = min N (sp.image_height - 1 - N * (b : Int) + 1)
              ∧ ∀ i : Nat, i < batch.length →
                  ∃ tp, batch[i]? = some tp ∧ tp.thread_index = (i : Int)
                    ∧ tp.line_index = sp.image_height - 1 - N * (b : Int) - (i : Int))
        ∧ (∀ b : Nat, b + 1 < log.batches.length →
            ∃ batch, log.batches[b]? = some batch ∧ (batch.length : Int) = N)
        ∧ ((log.batches.map List.length).sum : Int) = sp.image_height := by
  constructor
  · intro hw
    obtain ⟨outs1, h⟩ := multi_threaded_spec pixel N sp fuel hw hN hfuel
    rw [h]
    rfl
  · intro log hlog
    have hw : 0 ≤ sp.image_width := by
      by_contra hneg
      simp [multi_threaded, hneg] at hlog
    obtain ⟨outs1, h⟩ := multi_threaded_spec pixel N sp fuel hw hN hfuel
    rw [h] at hlog
    have hb : log.batches = batches_from N sp (sp.image_height - 1) := by
      rw [← Option.some.inj hlog]
    rw [hb, length_batches_from]
    have hsize : ∀ b : Nat, 0 ≤ min N (sp.image_height - 1 - N * (b : Int) + 1) →
        (((upTo (min N (sp.image_height - 1 - N * (b : Int) + 1))).map
          (batch_member N sp (sp.image_height - 1 - N * (b : Int)))).length : Int)
          = min N (sp.image_height - 1 - N * (b : Int) + 1) := by
      intro b h0
      rw [List.length_map, length_upTo]
      omega
    refine ⟨batch_count_cast N sp.image_height hh hN, ?_, ?_,
      sum_length_batches_from N sp hN sp.image_height hh⟩
    · intro b hlt
      refine ⟨_, getElem?_batches_from N sp _ b hlt, ?_, ?_⟩
      · apply hsize
        rcases Nat.lt_or_ge (b + 1) (batch_count N (sp.image_height - 1)) with h1 | h1
        · have := full_batch_of_not_last N sp.image_height hh hN b h1
          omega
        · -- the last batch: its top row is not negative
          have hc := batch_count_cast N sp.image_height hh hN
          have hs := (thread_chunk_size_spec ⟨0, 0, 0, 0, sp.image_height, 0, N⟩ hN).2
          have hs2 : (⌈(sp.image_height : ℚ) / (N : ℚ)⌉ - 1) * N < sp.image_height := hs
          rw [← hc] at hs2
          have e : ((batch_count N (sp.image_height - 1) : Nat) : Int) = (b : Int) + 1 := by
            omega
          rw [e] at hs2
          have e2 : ((b : Int) + 1 - 1) * N = N * (b : Int) := by ring
          omega
      · intro i hi
        rw [List.length_map, length_upTo] at hi
        refine ⟨batch_member N sp (sp.image_height - 1 - N * (b : Int)) (i : Int), ?_, rfl, rfl⟩
        rw [List.getElem?_map, upTo_eq, List.getElem?_map, List.getElem?_range hi]
        rfl
    · intro b hlt
      refine ⟨_, getElem?_batches_from N sp _ b (by omega), ?_⟩
      have := full_batch_of_not_last N sp.image_height hh hN b hlt
      rw [hsize b (by omega)]
      omega

/-- Witness for C5: height 10, three workers: four batches of sizes 3, 3, 3, 1. -/
theorem multi_threaded_batches_witness :
    (multi_threaded (fun _ _ => "p") 10 3 ⟨1, 1, 10, 50⟩).isSome = true
    ∧ (multi_threaded (fun _ _ => "p") 10 3 ⟨1, 1, 10, 50⟩).map
        (fun log => log.batches.map List.length) = some [3, 3, 3, 1]
    ∧ (multi_threaded (fun _ _ => "p") 10 3 ⟨1, 1, 10, 50⟩).map
        (fun log => log.batches.map (fun b => b.map thread_params.line_index))
          = some [[9, 8, 7], [6, 5, 4], [3, 2, 1], [0]] :=
  ⟨(multi_threaded_batches (fun _ _ => "p") 3 ⟨1, 1, 10, 50⟩ 10 (by decide) (by decide)
      (by decide)).1 (by decide), by decide, by decide⟩

/-! ## Claims on the shading kernel -/

/-- Claim C6. For every ray, scene, ambient state and `depth ≤ 0`, `ray_color`
returns the colour `(0,0,0)`, makes no `hit` query, no `scatter` query and no
recursive call, and leaves the ambient state untouched. -/
theorem ray_color_depth_nonpos {K ρ σ : Type} [LinearOrderedField K]
    (unit_vector : vec3 K → vec3 K) (world : hittable K ρ σ) (r : ray K) (depth : Int)
    (g : σ) (hdepth : depth ≤ 0) :
    (ray_color unit_vector world r depth g).value = ⟨0, 0, 0⟩
    ∧ (ray_color unit_vector world r depth g).hit_queries = 0
    ∧ (ray_color unit_vector world r depth g).scatter_queries = 0
    ∧ (ray_color unit_vector world r depth g).recursive_calls = 0
    ∧ (ray_color unit_vector world r depth g).state = g := by
  rw [ray_color]
  simp [hdepth]

/-- Witness for C6: depth 0 in a scene that every ray hits. -/
theorem ray_color_depth_nonpos_witness :
    (ray_color id
        (⟨fun _ _ _ g => (some (), g + 1), fun r _ g => (some (⟨1, 1, 1⟩, r), g + 1)⟩ :
          hittable ℚ Unit Nat)
        ⟨⟨0, 0, 0⟩, ⟨0, 1, 0⟩⟩ 0 7).value = ⟨0, 0, 0⟩ :=
  (ray_color_depth_nonpos id _ _ 0 7 (by decide)).1

theorem ray_color_of_miss {K ρ σ : Type} [LinearOrderedField K]
    (unit_vector : vec3 K → vec3 K) (world : hittable K ρ σ) (r : ray K) (depth : Int)
    (g : σ) (hdepth : 1 ≤ depth) (hmiss : (world.hit r (1 / 1000) none g).1 = none) :
    ray_color unit_vector world r depth g
      = ⟨background (unit_vector r.direction).y, (world.hit r (1 / 1000) none g).2, 1, 0, 0⟩ := by
  rw [ray_color, if_neg (by omega : ¬ depth ≤ 0)]
  rcases hw : world.hit r (1 / 1000) none g with ⟨o, g1⟩
  rw [hw] at hmiss
  simp only at hmiss
  subst hmiss
  simp [background, vec3.add, vec3.smul]

/-- Claim C7. For `depth ≥ 1` and a ray that the scene's `hit` reports as a miss,
`ray_color` returns `(1-t)*(1,1,1) + t*(0.5,0.7,1.0)` with `t = 0.5*(y+1)`, `y`
the vertical component of the ray's unit direction; it makes one `hit` query,
no `scatter` query and no recursive call; the colour is the same for every
`depth ≥ 1`, and any other missing ray with the same `y` gets the same colour. -/
theorem ray_color_miss_background {K ρ σ : Type} [LinearOrderedField K]
    (unit_vector : vec3 K → vec3 K) (world : hittable K ρ σ) (r : ray K) (depth : Int)
    (g : σ) (hdepth : 1 ≤ depth) (hmiss : (world.hit r (1 / 1000) none g).1 = none) :
    (ray_color unit_vector world r depth g).value
        = ⟨(1 - (1 / 2) * ((unit_vector r.direction).y + 1)) * 1
              + (1 / 2) * ((unit_vector r.direction).y + 1) * (1 / 2),
           (1 - (1 / 2) * ((unit_vector r.direction).y + 1)) * 1
              + (1 / 2) * ((unit_vector r.direction).y + 1) * (7 / 10),
           (1 - (1 / 2) * ((unit_vector r.direction).y + 1)) * 1
              + (1 / 2) * ((unit_vector r.direction).y + 1) * 1⟩
    ∧ (ray_color unit_vector world r depth g).hit_queries = 1
    ∧ (ray_color unit_vector world r depth g).scatter_queries = 0
    ∧ (ray_color unit_vector world r depth g).recursive_calls = 0
    ∧ (∀ depth2 : Int, 1 ≤ depth2 →
        ray_color unit_vector world r depth2 g = ray_color unit_vector world r depth g)
    ∧ (∀ (r2 : ray K) (depth2 : Int) (g2 : σ), 1 ≤ depth2 →
        (world.hit r2 (1 / 1000) none g2).1 = none →
        (unit_vector r2.direction).y = (unit_vector r.direction).y →
        (ray_color unit_vector world r2 depth2 g2).value
          = (ray_color unit_vector world r depth g).value) := by
  have h := ray_color_of_miss unit_vector world r depth g hdepth hmiss
  refine ⟨by rw [h]; rfl, by rw [h], by rw [h], by rw [h], ?_, ?_⟩
  · intro depth2 hd2
    rw [h, ray_color_of_miss unit_vector world r depth2 g hd2 hmiss]
  · intro r2 depth2 g2 hd2 hmiss2 hy
    rw [h, ray_color_of_miss unit_vector world r2 depth2 g2 hd2 hmiss2, hy]

/-- Witness for C7: the scene with zero objects, depth 5, a ray pointing up. -/
theorem ray_color_miss_background_witness :
    (ray_color id (empty_world ℚ Unit) ⟨⟨0, 0, 0⟩, ⟨0, 1, 0⟩⟩ 5 ()).value
        = ⟨(1 - (1 / 2) * ((1 : ℚ) + 1)) * 1 + (1 / 2) * ((1 : ℚ) + 1) * (1 / 2),
           (1 - (1 / 2) * ((1 : ℚ) + 1)) * 1 + (1 / 2) * ((1 : ℚ) + 1) * (7 / 10),
           (1 - (1 / 2) * ((1 : ℚ) + 1)) * 1 + (1 / 2) * ((1 : ℚ) + 1) * 1⟩
    ∧ (ray_color id (empty_world ℚ Unit) ⟨⟨0, 0, 0⟩, ⟨0, 1, 0⟩⟩ 5 ()).recursive_calls = 0 :=
  ⟨(ray_color_miss_background id (empty_world ℚ Unit) ⟨⟨0, 0, 0⟩, ⟨0, 1, 0⟩⟩ 5 ()
      (by decide) rfl).1,
   (ray_color_miss_background id (empty_world ℚ Unit) ⟨⟨0, 0, 0⟩, ⟨0, 1, 0⟩⟩ 5 ()
      (by decide) rfl).2.2.2.1⟩

/-- Claim C8. For `depth ≥ 1` and a ray that hits the scene with record `rec`:
if the material's `scatter` fails, `ray_color` returns `(0,0,0)`; if it succeeds
with attenuation `a` and scattered ray `s`, `ray_color` returns the elementwise
product of `a` and `ray_color(s, world, depth - 1)`, the nested call running
from the ambient state that `scatter` left. -/
theorem ray_color_hit {K ρ σ : Type} [LinearOrderedField K]
    (unit_vector : vec3 K → vec3 K) (world : hittable K ρ σ) (r : ray K) (depth : Int)
    (g g1 : σ) (rec : ρ) (hdepth : 1 ≤ depth)
    (hhit : world.hit r (1 / 1000) none g = (some rec, g1)) :
    (∀ g2 : σ, world.scatter r rec g1 = (none, g2) →
        (ray_color unit_vector world r depth g).value = ⟨0, 0, 0⟩
        ∧ (ray_color unit_vector world r depth g).state = g2
        ∧ (ray_color unit_vector world r depth g).recursive_calls = 0)
    ∧ (∀ (a : color K) (s : ray K) (g2 : σ), world.scatter r rec g1 = (some (a, s), g2) →
        (ray_color unit_vector world r depth g).value
            = ⟨a.x * (ray_color unit_vector world s (depth - 1) g2).value.x,
               a.y * (ray_color unit_vector world s (depth - 1) g2).value.y,
               a.z * (ray_color unit_vector world s (depth - 1) g2).value.z⟩
        ∧ (ray_color unit_vector world r depth g).state
            = (ray_color unit_vector world s (depth - 1) g2).state) := by
  constructor
  · intro g2 hs
    rw [ray_color, if_neg (by omega : ¬ depth ≤ 0), hhit]
    simp only [hs, and_self]
  · intro a s g2 hs
    rw [ray_color, if_neg (by omega : ¬ depth ≤ 0), hhit]
    simp only [hs, vec3.mul, and_self]

/-- Witness for C8: a scene that every ray hits and that always scatters with
attenuation `(1/2, 1/2, 1/2)`, depth 2. -/
theorem ray_color_hit_witness :
    (ray_color id
        (⟨fun _ _ _ g => (some (), g), fun r _ g => (some (⟨1 / 2, 1 / 2, 1 / 2⟩, r), g + 1)⟩ :
          hittable ℚ Unit Nat) ⟨⟨0, 0, 0⟩, ⟨0, 1, 0⟩⟩ 2 0).state
      = (ray_color id
        (⟨fun _ _ _ g => (some (), g), fun r _ g => (some (⟨1 / 2, 1 / 2, 1 / 2⟩, r), g + 1)⟩ :
          hittable ℚ Unit Nat) ⟨⟨0, 0, 0⟩, ⟨0, 1, 0⟩⟩ (2 - 1) 1).state :=
  ((ray_color_hit id
      (⟨fun _ _ _ g => (some (), g), fun r _ g => (some (⟨1 / 2, 1 / 2, 1 / 2⟩, r), g + 1)⟩ :
        hittable ℚ Unit Nat) ⟨⟨0, 0, 0⟩, ⟨0, 1, 0⟩⟩ 2 0 0 () (by decide) rfl).2
    ⟨1 / 2, 1 / 2, 1 / 2⟩ ⟨⟨0, 0, 0⟩, ⟨0, 1, 0⟩⟩ 1 rfl).2

/-! ## Claims on the colour encoder -/

theorem clamp_bounds {K : Type} [LinearOrderedField K] (x lo hi : K) (h : lo ≤ hi) :
    lo ≤ clamp x lo hi ∧ clamp x lo hi ≤ hi := by
  unfold clamp
  split_ifs with h1 h2
  · exact ⟨le_refl _, h⟩
  · exact ⟨h, le_refl _⟩
  · exact ⟨not_lt.1 h1, not_lt.1 h2⟩

theorem channel_int_eq_floor {K : Type} [LinearOrderedField K] [FloorRing K] (sqrt : K → K)
    (c : K) (samples_per_pixel : Int) :
    channel_int sqrt c samples_per_pixel
      = ⌊256 * clamp (sqrt (c / (samples_per_pixel : K))) 0 (999 / 1000)⌋ := by
  have hb := clamp_bounds (sqrt (1 / (samples_per_pixel : K) * c)) 0 (999 / 1000)
    (by norm_num)
  have e : 1 / (samples_per_pixel : K) * c = c / (samples_per_pixel : K) := by
    rw [one_div, div_eq_mul_inv, mul_comm]
  unfold channel_int to_int
  simp only
  rw [if_pos (mul_nonneg (by norm_num) hb.1), e]

theorem channel_int_bounds {K : Type} [LinearOrderedField K] [FloorRing K] (sqrt : K → K)
    (c : K) (samples_per_pixel : Int) :
    0 ≤ channel_int sqrt c samples_per_pixel ∧ channel_int sqrt c samples_per_pixel ≤ 255 := by
  have hb := clamp_bounds (sqrt (c / (samples_per_pixel : K))) 0 (999 / 1000) (by norm_num)
  rw [channel_int_eq_floor]
  constructor
  · exact Int.floor_nonneg.2 (mul_nonneg (by norm_num) hb.1)
  · have h : ⌊256 * clamp (sqrt (c / (samples_per_pixel : K))) 0 (999 / 1000)⌋ < 256 := by
      rw [Int.floor_lt]
      have : 256 * clamp (sqrt (c / (samples_per_pixel : K))) 0 (999 / 1000)
          ≤ 256 * (999 / 1000) := mul_le_mul_of_nonneg_left hb.2 (by norm_num)
      push_cast
      linarith
    omega

/-- Claim C9. For a colour with non-negative channels and `samples_per_pixel ≥ 1`
(exact arithmetic, any `sqrt`): the text of `color_to_string` is made of three
integers, each in `[0, 255]`; and every argument `scale * c` handed to `sqrt` is
non-negative. -/
theorem color_to_string_channels_in_range {K : Type} [LinearOrderedField K] [FloorRing K]
    (sqrt : K → K) (pixel_color : color K) (samples_per_pixel : Int)
    (hx : 0 ≤ pixel_color.x) (hy : 0 ≤ pixel_color.y) (hz : 0 ≤ pixel_color.z)
    (hspp : 1 ≤ samples_per_pixel) :
    color_to_string sqrt pixel_color samples_per_pixel
        = toString (channel_int sqrt pixel_color.x samples_per_pixel) ++ " "
          ++ toString (channel_int sqrt pixel_color.y samples_per_pixel) ++ " "
          ++ toString (channel_int sqrt pixel_color.z samples_per_pixel) ++ "\n"
    ∧ (0 ≤ channel_int sqrt pixel_color.x samples_per_pixel
        ∧ channel_int sqrt pixel_color.x samples_per_pixel ≤ 255)
    ∧ (0 ≤ channel_int sqrt pixel_color.y samples_per_pixel
        ∧ channel_int sqrt pixel_color.y samples_per_pixel ≤ 255)
    ∧ (0 ≤ channel_int sqrt pixel_color.z samples_per_pixel
        ∧ channel_int sqrt pixel_color.z samples_per_pixel ≤ 255)
    ∧ (0 ≤ 1 / (samples_per_pixel : K) * pixel_color.x
        ∧ 0 ≤ 1 / (samples_per_pixel : K) * pixel_color.y
        ∧ 0 ≤ 1 / (samples_per_pixel : K) * pixel_color.z) := by
  have hs : (0 : K) ≤ 1 / (samples_per_pixel : K) := by
    have : (0 : K) ≤ (samples_per_pixel : K) := by exact_mod_cast (by omega : 0 ≤ samples_per_pixel)
    exact div_nonneg zero_le_one this
  exact ⟨rfl, channel_int_bounds _ _ _, channel_int_bounds _ _ _, channel_int_bounds _ _ _,
    mul_nonneg hs hx, mul_nonneg hs hy, mul_nonneg hs hz⟩

/-- Witness for C9: the real numbers with the real square root, the colour
`(0, 4, 1)` accumulated over 4 samples. -/
theorem color_to_string_channels_in_range_witness :
    (0 ≤ channel_int Real.sqrt (0 : ℝ) 4 ∧ channel_int Real.sqrt (0 : ℝ) 4 ≤ 255)
    ∧ (0 ≤ channel_int Real.sqrt (4 : ℝ) 4 ∧ channel_int Real.sqrt (4 : ℝ) 4 ≤ 255)
    ∧ (0 ≤ channel_int Real.sqrt (1 : ℝ) 4 ∧ channel_int Real.sqrt (1 : ℝ) 4 ≤ 255) :=
  ⟨(color_to_string_channels_in_range Real.sqrt (⟨0, 4, 1⟩ : color ℝ) 4 (le_refl _)
      (by norm_num) (by norm_num) (by decide)).2.1,
   (color_to_string_channels_in_range Real.sqrt (⟨0, 4, 1⟩ : color ℝ) 4 (le_refl _)
      (by norm_num) (by norm_num) (by decide)).2.2.1,
   (color_to_string_channels_in_range Real.sqrt (⟨0, 4, 1⟩ : color ℝ) 4 (le_refl _)
      (by norm_num) (by norm_num) (by decide)).2.2.2.1⟩

theorem div_checked_of_ne {K : Type} [LinearOrderedField K] (a b : K) (h : b ≠ 0) :
    div_checked a b = some (a / b) := by
  simp [div_checked, h]

theorem sample_uv_eq {K : Type} [LinearOrderedField K] (image_width image_height i j : Int)
    (jitter_x jitter_y : K) (hw : image_width ≠ 1) (hh : image_height ≠ 1) :
    sample_uv image_width image_height i j jitter_x jitter_y
      = some (((i : K) + jitter_x) / ((image_width - 1 : Int) : K),
              ((j : K) + jitter_y) / ((image_height - 1 : Int) : K)) := by
  have h1 : ((image_width - 1 : Int) : K) ≠ 0 := Int.cast_ne_zero.2 (by omega)
  have h2 : ((image_height - 1 : Int) : K) ≠ 0 := Int.cast_ne_zero.2 (by omega)
  simp only [sample_uv, div_checked_of_ne _ _ h1, div_checked_of_ne _ _ h2, Option.some_bind]

/-- Claim C17. For `image_width > 1`, `image_height > 1`, `samples_per_pixel > 0`
and `N ≥ 1`, every division of the row renderers (by `image_width - 1` and
`image_height - 1`), of the encoder (by `samples_per_pixel`) and of the chunk
computation of `thread_work` (by `N`) has a non-zero divisor: the checked
divisions succeed and give the quotients the embedding uses. -/
theorem divisors_nonzero (K : Type) [LinearOrderedField K] [FloorRing K]
    (image_width image_height samples_per_pixel N : Int)
    (hw : 1 < image_width) (hh : 1 < image_height) (hspp : 0 < samples_per_pixel)
    (hN : 1 ≤ N) :
    (((image_width - 1 : Int) : K) ≠ 0 ∧ ((image_height - 1 : Int) : K) ≠ 0
      ∧ (samples_per_pixel : K) ≠ 0 ∧ (N : ℚ) ≠ 0)
    ∧ (∀ (i j : Int) (jitter_x jitter_y : K),
        sample_uv image_width image_height i j jitter_x jitter_y
          = some (((i : K) + jitter_x) / ((image_width - 1 : Int) : K),
                  ((j : K) + jitter_y) / ((image_height - 1 : Int) : K)))
    ∧ (encoder_scale samples_per_pixel = some (1 / (samples_per_pixel : K))
        ∧ ∀ (sqrt : K → K) (c : K), channel_int sqrt c samples_per_pixel
            = to_int (256 * clamp (sqrt (1 / (samples_per_pixel : K) * c)) 0 (999 / 1000)))
    ∧ (chunk_quotient image_height N = some ((image_height : ℚ) / (N : ℚ))
        ∧ ∀ tp : thread_params, tp.image_height = image_height → tp.N = N →
            thread_chunk_size tp = ⌈(image_height : ℚ) / (N : ℚ)⌉) := by
  have h1 : ((image_width - 1 : Int) : K) ≠ 0 := Int.cast_ne_zero.2 (by omega)
  have h2 : ((image_height - 1 : Int) : K) ≠ 0 := Int.cast_ne_zero.2 (by omega)
  have h3 : (samples_per_pixel : K) ≠ 0 := Int.cast_ne_zero.2 (by omega)
  have h4 : (N : ℚ) ≠ 0 := Int.cast_ne_zero.2 (by omega)
  refine ⟨⟨h1, h2, h3, h4⟩, ?_, ⟨div_checked_of_ne _ _ h3, fun _ _ => rfl⟩,
    ⟨div_checked_of_ne _ _ h4, ?_⟩⟩
  · intro i j jitter_x jitter_y
    exact sample_uv_eq image_width image_height i j jitter_x jitter_y (by omega) (by omega)
  · intro tp e1 e2
    rw [thread_chunk_size, e1, e2]

/-- Witness for C17: width 2, height 2, one sample per pixel, one worker, over
the rationals. -/
theorem divisors_nonzero_witness :
    ((((2 : Int) - 1 : Int) : ℚ) ≠ 0 ∧ (((2 : Int) - 1 : Int) : ℚ) ≠ 0
      ∧ ((1 : Int) : ℚ) ≠ 0 ∧ ((1 : Int) : ℚ) ≠ 0)
    ∧ (encoder_scale 1 = some (1 / ((1 : Int) : ℚ)))
    ∧ chunk_quotient 2 1 = some (((2 : Int) : ℚ) / ((1 : Int) : ℚ)) :=
  ⟨(divisors_nonzero ℚ 2 2 1 1 (by decide) (by decide) (by decide) (by decide)).1,
   (divisors_nonzero ℚ 2 2 1 1 (by decide) (by decide) (by decide) (by decide)).2.2.1.1,
   (divisors_nonzero ℚ 2 2 1 1 (by decide) (by decide) (by decide) (by decide)).2.2.2.1⟩

/-! ## Claim on the slots written by a batch -/

theorem nodup_upTo (n : Int) : (upTo n).Nodup := by
  unfold upTo
  refine List.Nodup.map ?_ (List.nodup_range _)
  intro a b hab
  exact Int.ofNat.inj hab

theorem mem_batches_from (N : Int) (sp : scene_params) (j : Int) (batch : List thread_params)
    (h : batch ∈ batches_from N sp j) :
    ∃ top m : Int, m ≤ N ∧ batch = (upTo m).map (batch_member N sp top) := by
  simp only [batches_from, List.mem_map, List.mem_range] at h
  obtain ⟨b, _, rfl⟩ := h
  exact ⟨j - N * (b : Int), min N (j - N * (b : Int) + 1), min_le_left _ _, rfl⟩

/-- The worker `one_line_thread` changes no slot but its own. -/
theorem one_line_thread_other_slots (pixel : Int → Int → String) (tp : thread_params)
    (outs : List (List String)) (n : Nat) (hok : slots_ok outs n tp.image_width.toNat)
    (ht0 : 0 ≤ tp.thread_index) (ht1 : tp.thread_index < (n : Int)) :
    ∃ outs1, one_line_thread pixel tp outs = some outs1
      ∧ slots_ok outs1 n tp.image_width.toNat
      ∧ ∀ t : Nat, t ≠ tp.thread_index.toNat → outs1[t]? = outs[t]? := by
  have hlt : tp.thread_index.toNat < outs.length := by rw [hok.1]; omega
  have h := one_line_thread_ok pixel tp outs outs[tp.thread_index.toNat] ht0 hlt
    (List.getElem?_eq_getElem hlt) (hok.2 _ (List.getElem_mem hlt))
  refine ⟨_, h, ⟨by rw [List.length_set]; exact hok.1, ?_⟩, ?_⟩
  · intro s hs
    rcases List.mem_or_eq_of_mem_set hs with h1 | h1
    · exact hok.2 s h1
    · rw [h1]
      exact length_row_text _ _ _
  · intro t ht
    exact List.getElem?_set_ne (Ne.symm ht)

/-- Claim C14. For `N ≥ 1`, `image_width ≥ 0`, any `image_height` (in particular
`image_height ≥ 0`) and enough fuel, the run of `multi_threaded` never leaves the
slot table, and in each batch: the workers have pairwise distinct
`thread_index` values, each in `[0, N)`; every column a worker writes is in
`[0, image_width)`; and a worker run on a table of `N` slots of `image_width`
entries succeeds and changes no slot but `thread_index`, so no two workers of a
batch write the same slot. -/
theorem multi_threaded_writes_in_table (pixel : Int → Int → String) (N : Int)
    (sp : scene_params) (fuel : Nat) (hN : 1 ≤ N) (hw : 0 ≤ sp.image_width)
    (hfuel : sp.image_height ≤ (fuel : Int)) :
    (multi_threaded pixel fuel N sp).isSome = true
    ∧ ∀ log, multi_threaded pixel fuel N sp = some log → ∀ batch ∈ log.batches,
        (batch.map thread_params.thread_index).Nodup
        ∧ ∀ tp ∈ batch,
            (0 ≤ tp.thread_index ∧ tp.thread_index < N)
            ∧ (∀ i ∈ upTo tp.image_width, 0 ≤ i ∧ i < sp.image_width)
            ∧ ∀ outs : List (List String), slots_ok outs N.toNat sp.image_width.toNat →
                ∃ outs1, one_line_thread pixel tp outs = some outs1
                  ∧ slots_ok outs1 N.toNat sp.image_width.toNat
                  ∧ ∀ t : Nat, t ≠ tp.thread_index.toNat → outs1[t]? = outs[t]? := by
  obtain ⟨outs1, h⟩ := multi_threaded_spec pixel N sp fuel hw hN hfuel
  refine ⟨by rw [h]; rfl, ?_⟩
  intro log hlog batch hbatch
  rw [h] at hlog
  have hb : log.batches = batches_from N sp (sp.image_height - 1) := by
    rw [← Option.some.inj hlog]
  rw [hb] at hbatch
  obtain ⟨top, m, hm, rfl⟩ := mem_batches_from N sp _ batch hbatch
  constructor
  · rw [List.map_map]
    have e : (thread_params.thread_index ∘ batch_member N sp top) = id := by
      funext i
      rfl
    rw [e, List.map_id]
    exact nodup_upTo m
  · intro tp htp
    simp only [List.mem_map] at htp
    obtain ⟨i, hi, rfl⟩ := htp
    have hi2 := mem_upTo.1 hi
    refine ⟨⟨hi2.1, by simp only [batch_member]; omega⟩, ?_, ?_⟩
    · intro c hc
      exact mem_upTo.1 hc
    · intro outs hok
      exact one_line_thread_other_slots pixel (batch_member N sp top i) outs N.toNat hok
        hi2.1 (by simp only [batch_member]; omega)

/-- Witness for C14: width 2, height 3, two workers. -/
theorem multi_threaded_writes_in_table_witness :
    (multi_threaded (fun _ _ => "p") 3 2 ⟨1, 2, 3, 50⟩).isSome = true
    ∧ (multi_threaded (fun _ _ => "p") 3 2 ⟨1, 2, 3, 50⟩).map
        (fun log => log.batches.map (fun b => b.map thread_params.thread_index))
      = some [[0, 1], [0]] :=
  ⟨(multi_threaded_writes_in_table (fun _ _ => "p") 2 ⟨1, 2, 3, 50⟩ 3 (by decide) (by decide)
      (by decide)).1, by decide⟩

/-! ## Claim on the order of joins and reads -/

theorem replay_append (s : thread_state) (a b : List thread_event) :
    replay s (a ++ b) = (replay s a).bind (fun s1 => replay s1 b) := by
  simp only [replay, List.foldlM_append]
  rfl

theorem replay_launches (f : Int → Int) :
    ∀ (L : List Int) (s : thread_state), L.Nodup → (∀ i ∈ L, i ∉ s.running) →
      ∃ s1, replay s (L.map (fun i => thread_event.launch i (f i))) = some s1
        ∧ (∀ x, x ∈ s1.running ↔ x ∈ L ∨ x ∈ s.running)
        ∧ (∀ x, x ∈ s1.joined ↔ x ∈ s.joined ∧ x ∉ L)
  | [], s, _, _ => ⟨s, rfl, by simp, by simp⟩
  | i :: L, s, hnd, hfree => by
    have hi : i ∉ s.running := hfree i (List.mem_cons_self _ _)
    obtain ⟨hiL, hndL⟩ := List.nodup_cons.1 hnd
    obtain ⟨s1, h1, h2, h3⟩ := replay_launches f L
      ⟨i :: s.running, s.joined.filter (fun x => x ≠ i)⟩ hndL (by
        intro k hk hmem
        rcases List.mem_cons.1 hmem with h | h
        · exact hiL (h ▸ hk)
        · exact hfree k (List.mem_cons_of_mem _ hk) h)
    refine ⟨s1, ?_, ?_, ?_⟩
    · simp only [replay, List.map_cons, List.foldlM_cons, thread_step, if_neg hi] at h1 ⊢
      exact h1
    · intro x
      rw [h2 x]
      simp only [List.mem_cons]
      tauto
    · intro x
      rw [h3 x]
      simp only [List.mem_filter, List.mem_cons, decide_eq_true_eq]
      tauto

theorem replay_joins :
    ∀ (L : List Int) (s : thread_state), L.Nodup → (∀ i ∈ L, i ∈ s.running) →
      ∃ s1, replay s (L.map thread_event.join) = some s1
        ∧ (∀ x, x ∈ s1.running ↔ x ∈ s.running ∧ x ∉ L)
        ∧ (∀ x, x ∈ s1.joined ↔ x ∈ L ∨ x ∈ s.joined)
  | [], s, _, _ => ⟨s, rfl, by simp, by simp⟩
  | i :: L, s, hnd, hrun => by
    have hi : i ∈ s.running := hrun i (List.mem_cons_self _ _)
    obtain ⟨hiL, hndL⟩ := List.nodup_cons.1 hnd
    obtain ⟨s1, h1, h2, h3⟩ := replay_joins L
      ⟨s.running.filter (fun x => x ≠ i), i :: s.joined⟩ hndL (by
        intro k hk
        simp only [List.mem_filter, decide_eq_true_eq]
        exact ⟨hrun k (List.mem_cons_of_mem _ hk), fun h => hiL (h ▸ hk)⟩)
    refine ⟨s1, ?_, ?_, ?_⟩
    · simp only [replay, List.map_cons, List.foldlM_cons, thread_step, if_pos hi] at h1 ⊢
      exact h1
    · intro x
      rw [h2 x]
      simp only [List.mem_filter, List.mem_cons, decide_eq_true_eq]
      tauto
    · intro x
      rw [h3 x]
      simp only [List.mem_cons]
      tauto

theorem replay_reads :
    ∀ (L : List Int) (s : thread_state), (∀ i ∈ L, i ∈ s.joined ∧ i ∉ s.running) →
      replay s (L.map thread_event.read) = some s
  | [], _, _ => rfl
  | i :: L, s, h => by
    have hi := h i (List.mem_cons_self _ _)
    have hL := replay_reads L s (fun k hk => h k (List.mem_cons_of_mem _ hk))
    simp only [replay, List.map_cons, List.foldlM_cons, thread_step, if_pos hi] at hL ⊢
    exact hL

/-- One batch, started with no worker running, replays without fault and ends
with no worker running. -/
theorem replay_batch (f : Int → Int) (L : List Int) (hnd : L.Nodup) (s : thread_state)
    (hs : s.running = []) :
    ∃ s1, replay s (L.map (fun i => thread_event.launch i (f i)) ++ L.map thread_event.join
        ++ L.map thread_event.read) = some s1 ∧ s1.running = [] := by
  obtain ⟨s1, h1, h1r, h1j⟩ := replay_launches f L s hnd (by simp [hs])
  obtain ⟨s2, h2, h2r, h2j⟩ := replay_joins L s1 hnd (fun i hi => (h1r i).2 (Or.inl hi))
  have hempty : ∀ x, x ∉ s2.running := by
    intro x hx
    have := (h2r x).1 hx
    rw [h1r x, hs] at this
    simp at this
  have h3 := replay_reads L s2 (fun i hi => ⟨(h2j i).2 (Or.inl hi), hempty i⟩)
  refine ⟨s2, ?_, List.eq_nil_iff_forall_not_mem.2 hempty⟩
  rw [replay_append, replay_append, h1]
  simp only [Option.some_bind, h2, h3]

theorem launches_append (a b : List thread_event) :
    launches (a ++ b) = launches a ++ launches b := by
  simp [launches, List.filterMap_append]

theorem launches_map_launch (f : Int → Int) (L : List Int) :
    launches (L.map (fun i => thread_event.launch i (f i))) = L.map (fun i => (i, f i)) := by
  induction L with
  | nil => rfl
  | cons i L ih =>
    unfold launches at ih ⊢
    simp only [List.map_cons, List.filterMap_cons]
    rw [ih]

theorem launches_map_join (L : List Int) : launches (L.map thread_event.join) = [] := by
  induction L with
  | nil => rfl
  | cons i L ih =>
    unfold launches at ih ⊢
    simp only [List.map_cons, List.filterMap_cons]
    rw [ih]

theorem launches_map_read (L : List Int) : launches (L.map thread_event.read) = [] := by
  induction L with
  | nil => rfl
  | cons i L ih =>
    unfold launches at ih ⊢
    simp only [List.map_cons, List.filterMap_cons]
    rw [ih]

theorem launches_batch (f : Int → Int) (L : List Int) :
    launches (L.map (fun i => thread_event.launch i (f i)) ++ L.map thread_event.join
        ++ L.map thread_event.read) = L.map (fun i => (i, f i)) := by
  rw [launches_append, launches_append, launches_map_launch, launches_map_join,
    launches_map_read, List.append_nil, List.append_nil]

theorem multi_threaded_events_spec (N : Int) (sp : scene_params) (hN : 1 ≤ N) :
    ∀ (fuel : Nat) (j : Int) (s : thread_state), j + 1 ≤ (fuel : Int) → s.running = [] →
      ∃ tr s1, multi_threaded_events N fuel j = some tr ∧ replay s tr = some s1
        ∧ s1.running = []
        ∧ launches tr = (batches_from N sp j).flatten.map
            (fun tp => (tp.thread_index, tp.line_index)) := by
  intro fuel
  induction fuel with
  | zero =>
    intro j s hj hs
    have hneg : j < 0 := by omega
    refine ⟨[], s, ?_, rfl, hs, ?_⟩
    · simp [multi_threaded_events, not_le.2 hneg]
    · rw [batches_from_of_neg N sp j hN hneg]
      rfl
  | succ fuel ih =>
    intro j s hj hs
    rcases lt_or_le j 0 with hneg | hpos
    · refine ⟨[], s, ?_, rfl, hs, ?_⟩
      · simp [multi_threaded_events, not_le.2 hneg]
      · rw [batches_from_of_neg N sp j hN hneg]
        rfl
    · obtain ⟨s1, h1, h1r⟩ := replay_batch (fun i => j - i) (upTo (min N (j + 1)))
        (nodup_upTo _) s hs
      obtain ⟨rest, s2, h2, h3, h3r, h4⟩ := ih (j - N) s1 (by push_cast at hj ⊢; omega) h1r
      refine ⟨(upTo (min N (j + 1))).map (fun i => thread_event.launch i (j - i))
          ++ (upTo (min N (j + 1))).map thread_event.join
          ++ (upTo (min N (j + 1))).map thread_event.read ++ rest, s2, ?_, ?_, h3r, ?_⟩
      · simp only [multi_threaded_events, if_pos hpos, h2, Option.map_some']
      · rw [replay_append, h1]
        exact h3
      · rw [launches_append, launches_batch, h4, batches_from_step N sp j hN hpos,
          List.flatten_cons, List.map_append, List.map_map]
        rfl

/-- In a sequence of actions that replays without fault, the worker of a slot
is joined and not running whenever the slot is read. -/
theorem joined_at_read (s s2 : thread_state) (a b : List thread_event) (i : Int)
    (h : replay s (a ++ thread_event.read i :: b) = some s2) :
    ∃ s1, replay s a = some s1 ∧ i ∈ s1.joined ∧ i ∉ s1.running := by
  rw [replay_append] at h
  cases h1 : replay s a with
  | none => simp [h1] at h
  | some s1 =>
    refine ⟨s1, rfl, ?_⟩
    rw [h1] at h
    simp only [Option.some_bind, replay, List.foldlM_cons, thread_step] at h
    by_contra hc
    rw [if_neg hc] at h
    simp at h

/-- Claim C13. For `N ≥ 1` and enough fuel, the actions of `multi_threaded` on
its worker threads replay without fault from the start (no worker running):
whenever the flush reads slot `i`, the worker launched into `threads[i]` has
been joined and no worker writing slot `i` is running; at the end no worker is
running.  The launches of that sequence are the workers of the run of
`multi_threaded`, batch by batch. -/
theorem multi_threaded_reads_after_join (pixel : Int → Int → String) (N : Int)
    (sp : scene_params) (fuel : Nat) (hN : 1 ≤ N) (hfuel : sp.image_height ≤ (fuel : Int)) :
    ∃ tr final, multi_threaded_events N fuel (sp.image_height - 1) = some tr
      ∧ replay ⟨[], []⟩ tr = some final
      ∧ final.running = []
      ∧ (∀ (a b : List thread_event) (i : Int), tr = a ++ thread_event.read i :: b →
          ∃ s1, replay ⟨[], []⟩ a = some s1 ∧ i ∈ s1.joined ∧ i ∉ s1.running)
      ∧ (∀ log, multi_threaded pixel fuel N sp = some log →
          launches tr = log.batches.flatten.map (fun tp => (tp.thread_index, tp.line_index))) := by
  obtain ⟨tr, final, h1, h2, h3, h4⟩ := multi_threaded_events_spec N sp hN fuel
    (sp.image_height - 1) ⟨[], []⟩ (by omega) rfl
  refine ⟨tr, final, h1, h2, h3, ?_, ?_⟩
  · intro a b i hsplit
    rw [hsplit] at h2
    exact joined_at_read _ _ a b i h2
  · intro log hlog
    have hw : 0 ≤ sp.image_width := by
      by_contra hneg
      simp [multi_threaded, hneg] at hlog
    obtain ⟨outs1, h⟩ := multi_threaded_spec pixel N sp fuel hw hN hfuel
    rw [h] at hlog
    have hb : log.batches = batches_from N sp (sp.image_height - 1) := by
      rw [← Option.some.inj hlog]
    rw [hb, h4]

/-- Witness for C13: height 3, two workers: launch 0, launch 1, join 0, join 1,
read 0, read 1, then launch 0, join 0, read 0. -/
theorem multi_threaded_reads_after_join_witness :
    (∃ tr final, multi_threaded_events 2 3 ((3 : Int) - 1) = some tr
      ∧ replay ⟨[], []⟩ tr = some final ∧ final.running = [])
    ∧ multi_threaded_events 2 3 ((3 : Int) - 1)
        = some [thread_event.launch 0 2, thread_event.launch 1 1, thread_event.join 0,
            thread_event.join 1, thread_event.read 0, thread_event.read 1,
            thread_event.launch 0 0, thread_event.join 0, thread_event.read 0]
    ∧ replay ⟨[], []⟩ [thread_event.launch 0 2, thread_event.read 0, thread_event.join 0]
        = none :=
  ⟨by
    obtain ⟨tr, final, h1, h2, h3, _⟩ := multi_threaded_reads_after_join (fun _ _ => "p") 2
      ⟨1, 1, 3, 50⟩ 3 (by decide) (by decide)
    exact ⟨tr, final, h1, h2, h3⟩, by decide, by decide⟩

/-! ## Claims on the recursion of the shading kernel -/

theorem ray_color_counters {K ρ σ : Type} [LinearOrderedField K]
    (unit_vector : vec3 K → vec3 K) (world : hittable K ρ σ) :
    ∀ (n : Nat) (depth : Int) (r : ray K) (g : σ), depth.toNat = n →
      (ray_color unit_vector world r depth g).recursive_calls ≤ n
      ∧ (ray_color unit_vector world r depth g).hit_queries ≤ n
      ∧ (ray_color unit_vector world r depth g).scatter_queries ≤ n := by
  intro n
  induction n with
  | zero =>
    intro depth r g hd
    rw [ray_color, if_pos (by omega : depth ≤ 0)]
    exact ⟨le_refl _, le_refl _, le_refl _⟩
  | succ n ih =>
    intro depth r g hd
    rw [ray_color, if_neg (by omega : ¬ depth ≤ 0)]
    split
    · split
      · rename_i scattered g2 _
        have h := ih (depth - 1) scattered g2 (by omega)
        simp only
        omega
      · exact ⟨Nat.zero_le _, by simp, by simp⟩
    · exact ⟨Nat.zero_le _, by simp, Nat.zero_le _⟩

/-- Claim C15. For every ray, scene, ambient state and integer `depth`,
`ray_color` (a total function: its recursion descends on `depth` and stops at
`depth ≤ 0`) makes at most `max(depth, 0)` nested calls, at most `max(depth, 0)`
`hit` queries and at most `max(depth, 0)` `scatter` queries. -/
theorem ray_color_calls_bounded {K ρ σ : Type} [LinearOrderedField K]
    (unit_vector : vec3 K → vec3 K) (world : hittable K ρ σ) (r : ray K) (depth : Int)
    (g : σ) :
    ((ray_color unit_vector world r depth g).recursive_calls : Int) ≤ max depth 0
    ∧ ((ray_color unit_vector world r depth g).hit_queries : Int) ≤ max depth 0
    ∧ ((ray_color unit_vector world r depth g).scatter_queries : Int) ≤ max depth 0 := by
  have h := ray_color_counters unit_vector world depth.toNat depth r g rfl
  have e : ((depth.toNat : Nat) : Int) = max depth 0 := Int.toNat_eq_max depth
  omega

theorem vec3_mul_zero {K : Type} [LinearOrderedField K] (a : color K) :
    vec3.mul a ⟨0, 0, 0⟩ = ⟨0, 0, 0⟩ := by
  simp [vec3.mul]

theorem vec3_one_mul {K : Type} [LinearOrderedField K] (a : color K) :
    vec3.mul ⟨1, 1, 1⟩ a = a := by
  simp [vec3.mul]

theorem vec3_mul_assoc {K : Type} [LinearOrderedField K] (a b c : color K) :
    vec3.mul (vec3.mul a b) c = vec3.mul a (vec3.mul b c) := by
  simp [vec3.mul, mul_assoc]

/-- The loop started with accumulator `acc` returns `acc` times the colour of
the recursive kernel, and the same ambient state. -/
theorem ray_color_loop_eq {K ρ σ : Type} [LinearOrderedField K]
    (unit_vector : vec3 K → vec3 K) (world : hittable K ρ σ) :
    ∀ (n : Nat) (depth : Int) (acc : color K) (r : ray K) (g : σ), depth.toNat = n →
      ray_color_loop unit_vector world acc r depth g
        = (vec3.mul acc (ray_color unit_vector world r depth g).value,
           (ray_color unit_vector world r depth g).state) := by
  intro n
  induction n with
  | zero =>
    intro depth acc r g hd
    rw [ray_color_loop, ray_color, if_pos (by omega : depth ≤ 0),
      if_pos (by omega : depth ≤ 0), vec3_mul_zero]
  | succ n ih =>
    intro depth acc r g hd
    rw [ray_color_loop, ray_color, if_neg (by omega : ¬ depth ≤ 0),
      if_neg (by omega : ¬ depth ≤ 0)]
    rcases world.hit r (1 / 1000) none g with ⟨_ | rec, g1⟩
    · simp [background, vec3.add, vec3.smul]
    · simp only
      rcases world.scatter r rec g1 with ⟨_ | ⟨a, s⟩, g2⟩
      · simp only [vec3_mul_zero]
      · simp only
        rw [ih (depth - 1) (vec3.mul acc a) s g2 (by omega), vec3_mul_assoc]

theorem ray_color_of_bounces {K ρ σ : Type} [LinearOrderedField K]
    (unit_vector : vec3 K → vec3 K) (world : hittable K ρ σ) :
    ∀ (n : Nat) (depth : Int) (r : ray K) (g : σ), depth.toNat = n →
      bounces world (1 / 1000) n r g →
      (ray_color unit_vector world r depth g).value = ⟨0, 0, 0⟩ := by
  intro n
  induction n with
  | zero =>
    intro depth r g hd _
    rw [ray_color, if_pos (by omega : depth ≤ 0)]
  | succ n ih =>
    intro depth r g hd hb
    obtain ⟨rec, g1, a, s, g2, hhit, hsc, hrest⟩ := hb
    rw [ray_color, if_neg (by omega : ¬ depth ≤ 0), hhit]
    simp only [hsc]
    rw [ih (depth - 1) s g2 (by omega) hrest, vec3_mul_zero]

/-- Claim C16. In exact arithmetic, for every ray, scene, ambient state and
`depth`, the recursive `ray_color` returns the colour and leaves the ambient
state of the explicit loop started with accumulator `(1,1,1)`, the given ray and
budget `depth`.  In particular, if the rays of the path hit and scatter for
`max(depth, 0)` bounces in a row, the result is black. -/
theorem ray_color_eq_loop {K ρ σ : Type} [LinearOrderedField K]
    (unit_vector : vec3 K → vec3 K) (world : hittable K ρ σ) (r : ray K) (depth : Int)
    (g : σ) :
    ((ray_color unit_vector world r depth g).value,
        (ray_color unit_vector world r depth g).state)
      = ray_color_loop unit_vector world ⟨1, 1, 1⟩ r depth g
    ∧ (bounces world (1 / 1000) depth.toNat r g →
        (ray_color unit_vector world r depth g).value = ⟨0, 0, 0⟩
        ∧ (ray_color_loop unit_vector world ⟨1, 1, 1⟩ r depth g).1 = ⟨0, 0, 0⟩) := by
  have h := ray_color_loop_eq unit_vector world depth.toNat depth ⟨1, 1, 1⟩ r g rfl
  rw [vec3_one_mul] at h
  refine ⟨h.symm, fun hb => ?_⟩
  have hz := ray_color_of_bounces unit_vector world depth.toNat depth r g rfl hb
  exact ⟨hz, by rw [h, hz]⟩

/-! ## Claim on the range of the shading kernel -/

theorem background_in_unit_range {K : Type} [LinearOrderedField K] (y : K) (h1 : -1 ≤ y)
    (h2 : y ≤ 1) : in_unit_range (background y) := by
  unfold in_unit_range background
  simp only
  refine ⟨⟨?_, ?_⟩, ⟨?_, ?_⟩, ⟨?_, ?_⟩⟩ <;> linarith

theorem mul_in_unit_range {K : Type} [LinearOrderedField K] (a b : color K)
    (ha : in_unit_range a) (hb : in_unit_range b) : in_unit_range (vec3.mul a b) := by
  obtain ⟨⟨a1, a2⟩, ⟨a3, a4⟩, ⟨a5, a6⟩⟩ := ha
  obtain ⟨⟨b1, b2⟩, ⟨b3, b4⟩, ⟨b5, b6⟩⟩ := hb
  exact ⟨⟨mul_nonneg a1 b1, mul_le_one₀ a2 b1 b2⟩, ⟨mul_nonneg a3 b3, mul_le_one₀ a4 b3 b4⟩,
    ⟨mul_nonneg a5 b5, mul_le_one₀ a6 b5 b6⟩⟩

theorem zero_in_unit_range {K : Type} [LinearOrderedField K] :
    in_unit_range (⟨0, 0, 0⟩ : color K) := by
  unfold in_unit_range
  simp

theorem ray_color_in_unit_range_aux {K ρ σ : Type} [LinearOrderedField K]
    (unit_vector : vec3 K → vec3 K) (world : hittable K ρ σ)
    (hunit : ∀ v : vec3 K, v ≠ ⟨0, 0, 0⟩ →
      -1 ≤ (unit_vector v).y ∧ (unit_vector v).y ≤ 1)
    (hmat : ∀ (r : ray K) (rec : ρ) (g : σ) (a : color K) (s : ray K) (g2 : σ),
      world.scatter r rec g = (some (a, s), g2) →
        in_unit_range a ∧ s.direction ≠ ⟨0, 0, 0⟩) :
    ∀ (n : Nat) (depth : Int) (r : ray K) (g : σ), depth.toNat = n →
      r.direction ≠ ⟨0, 0, 0⟩ →
      in_unit_range (ray_color unit_vector world r depth g).value := by
  intro n
  induction n with
  | zero =>
    intro depth r g hd _
    rw [ray_color, if_pos (by omega : depth ≤ 0)]
    exact zero_in_unit_range
  | succ n ih =>
    intro depth r g hd hr
    rw [ray_color, if_neg (by omega : ¬ depth ≤ 0)]
    split
    · split
      · rename_i rec g1 _ _ a s g2 hsc
        obtain ⟨ha, hs⟩ := hmat r rec g1 a s g2 hsc
        exact mul_in_unit_range _ _ ha (ih (depth - 1) s g2 (by omega) hs)
      · exact zero_in_unit_range
    · have hy := hunit r.direction hr
      have hb := background_in_unit_range (unit_vector r.direction).y hy.1 hy.2
      simpa [background, vec3.add, vec3.smul] using hb

/-- Adding samples with channels in `[0, 1]` to an accumulator with channels in
`[0, m]` leaves the channels in `[0, m + number of samples]`. -/
theorem pixel_color_sum_bound {K σ : Type} [LinearOrderedField K]
    (step : color K × σ → color K × σ)
    (hstep : ∀ acc : color K × σ, ∃ c : color K, in_unit_range c
      ∧ (step acc).1 = vec3.add acc.1 c) :
    ∀ (L : List Int) (acc : color K × σ) (m : Nat),
      ((0 ≤ acc.1.x ∧ acc.1.x ≤ (m : K)) ∧ (0 ≤ acc.1.y ∧ acc.1.y ≤ (m : K))
        ∧ (0 ≤ acc.1.z ∧ acc.1.z ≤ (m : K))) →
      ((0 ≤ (L.foldl (fun a _ => step a) acc).1.x
          ∧ (L.foldl (fun a _ => step a) acc).1.x ≤ ((m + L.length : Nat) : K))
        ∧ (0 ≤ (L.foldl (fun a _ => step a) acc).1.y
          ∧ (L.foldl (fun a _ => step a) acc).1.y ≤ ((m + L.length : Nat) : K))
        ∧ (0 ≤ (L.foldl (fun a _ => step a) acc).1.z
          ∧ (L.foldl (fun a _ => step a) acc).1.z ≤ ((m + L.length : Nat) : K)))
  | [], acc, m, h => by simpa using h
  | _ :: L, acc, m, h => by
    obtain ⟨c, hc, hs⟩ := hstep acc
    obtain ⟨⟨c1, c2⟩, ⟨c3, c4⟩, ⟨c5, c6⟩⟩ := hc
    obtain ⟨⟨a1, a2⟩, ⟨a3, a4⟩, ⟨a5, a6⟩⟩ := h
    have h1 := pixel_color_sum_bound step hstep L (step acc) (m + 1) (by
      rw [hs]
      simp only [vec3.add]
      push_cast
      refine ⟨⟨?_, ?_⟩, ⟨?_, ?_⟩, ⟨?_, ?_⟩⟩ <;> linarith)
    have e : m + 1 + L.length = m + (L.length + 1) := by omega
    rw [e] at h1
    exact h1

/-- Counterexample to C18: a scene that every ray with a non-zero direction
hits, whose material scatters with attenuation `(1,1,1)` into a ray of direction
`(0,0,0)`, which then misses; the unit direction of the zero vector is
undefined and stands here with vertical component `-3`.  The primary ray
`(0,1,0)` at depth 2 gets the first channel `3/2`. -/
theorem ray_color_not_in_unit_range :
    ¬ (∀ (unit_vector : vec3 ℚ → vec3 ℚ) (world : hittable ℚ Unit Unit) (r : ray ℚ)
        (depth : Int) (g : Unit),
        (∀ v : vec3 ℚ, v ≠ ⟨0, 0, 0⟩ → -1 ≤ (unit_vector v).y ∧ (unit_vector v).y ≤ 1) →
        (∀ (r2 : ray ℚ) (rec : Unit) (g1 : Unit) (a : color ℚ) (s : ray ℚ) (g2 : Unit),
          world.scatter r2 rec g1 = (some (a, s), g2) → in_unit_range a) →
        r.direction ≠ ⟨0, 0, 0⟩ →
        in_unit_range (ray_color unit_vector world r depth g).value) := by
  intro h
  have h1 := h
    (fun v => if v = ⟨0, 0, 0⟩ then ⟨0, -3, 0⟩
      else if v.x = 0 ∧ v.z = 0 then ⟨0, if 0 < v.y then 1 else -1, 0⟩ else ⟨0, 0, 0⟩)
    ⟨fun r _ _ g => (if r.direction = ⟨0, 0, 0⟩ then none else some (), g),
     fun r _ g => (some (⟨1, 1, 1⟩, ⟨r.origin, ⟨0, 0, 0⟩⟩), g)⟩
    ⟨⟨0, 0, 0⟩, ⟨0, 1, 0⟩⟩ 2 ()
    (by
      intro v hv
      simp only [if_neg hv]
      split_ifs <;> norm_num)
    (by
      intro r2 rec g1 a s g2 hsc
      simp only [Prod.mk.injEq, Option.some.injEq] at hsc
      rw [← hsc.1.1]
      unfold in_unit_range
      norm_num)
    (by decide)
  rw [ray_color, if_neg (by decide)] at h1
  simp only [show ¬ ((⟨0, 1, 0⟩ : vec3 ℚ) = ⟨0, 0, 0⟩) by decide, if_false] at h1
  rw [ray_color, if_neg (by decide)] at h1
  simp only [if_true] at h1
  unfold in_unit_range at h1
  simp only [vec3.mul, vec3.add, vec3.smul] at h1
  norm_num at h1

/-- Claim C18, amended. In exact arithmetic, for a `unit_vector` whose result
has vertical component in `[-1, 1]` on non-zero vectors, a scene whose materials
only return attenuations with channels in `[0, 1]` and scattered rays with a
non-zero direction, a ray with a non-zero direction and any `depth`, each
channel of the result of `ray_color` lies in `[0, 1]`; hence, for a camera that
only returns rays with a non-zero direction and `samples_per_pixel ≥ 1`, the sum
of the samples of a pixel divided by `samples_per_pixel` has its channels in
`[0, 1]`. -/
theorem ray_color_in_unit_range {K ρ σ : Type} [LinearOrderedField K]
    (unit_vector : vec3 K → vec3 K) (world : hittable K ρ σ) (r : ray K) (depth : Int)
    (g : σ)
    (hunit : ∀ v : vec3 K, v ≠ ⟨0, 0, 0⟩ →
      -1 ≤ (unit_vector v).y ∧ (unit_vector v).y ≤ 1)
    (hmat : ∀ (r2 : ray K) (rec : ρ) (g1 : σ) (a : color K) (s : ray K) (g2 : σ),
      world.scatter r2 rec g1 = (some (a, s), g2) →
        in_unit_range a ∧ s.direction ≠ ⟨0, 0, 0⟩)
    (hr : r.direction ≠ ⟨0, 0, 0⟩) :
    in_unit_range (ray_color unit_vector world r depth g).value
    ∧ ∀ (get_ray : K → K → σ → ray K × σ) (random_double : σ → K × σ)
        (image_width image_height max_depth i j samples_per_pixel : Int) (g0 : σ),
        (∀ (u v : K) (g1 : σ), (get_ray u v g1).1.direction ≠ ⟨0, 0, 0⟩) →
        1 ≤ samples_per_pixel →
        in_unit_range (sample_average
          (pixel_color_sum unit_vector world get_ray random_double image_width image_height
            max_depth i j samples_per_pixel g0).1 samples_per_pixel) := by
  refine ⟨ray_color_in_unit_range_aux unit_vector world hunit hmat depth.toNat depth r g rfl hr,
    ?_⟩
  intro get_ray random_double image_width image_height max_depth i j samples_per_pixel g0
    hcam hspp
  have hb := pixel_color_sum_bound
    (add_sample unit_vector world get_ray random_double image_width image_height max_depth i j)
    (fun acc => ⟨_, ray_color_in_unit_range_aux unit_vector world hunit hmat max_depth.toNat
      max_depth _ _ rfl (hcam _ _ _), rfl⟩)
    (upTo samples_per_pixel) (⟨0, 0, 0⟩, g0) 0 (by simp)
  have hlen : ((0 + (upTo samples_per_pixel).length : Nat) : K) = (samples_per_pixel : K) := by
    rw [length_upTo, Nat.zero_add]
    have e : ((samples_per_pixel.toNat : Nat) : Int) = samples_per_pixel :=
      Int.toNat_of_nonneg (by omega)
    exact_mod_cast congrArg (fun z : Int => (z : K)) e
  rw [hlen] at hb
  have hpos : (0 : K) < (samples_per_pixel : K) := Int.cast_pos.2 (by omega)
  obtain ⟨⟨b1, b2⟩, ⟨b3, b4⟩, ⟨b5, b6⟩⟩ := hb
  exact ⟨⟨div_nonneg b1 hpos.le, (div_le_one hpos).2 b2⟩,
    ⟨div_nonneg b3 hpos.le, (div_le_one hpos).2 b4⟩,
    ⟨div_nonneg b5 hpos.le, (div_le_one hpos).2 b6⟩⟩

/-- Witness for the amended C18: a scene hit by the first two queries, whose
material scatters upward with attenuation `(1/2, 1/3, 1/4)`; primary ray
`(0,1,0)`, depth 5. -/
theorem ray_color_in_unit_range_witness :
    in_unit_range (ray_color
      (fun v : vec3 ℚ => if v.x = 0 ∧ v.z = 0 then ⟨0, if 0 < v.y then 1 else -1, 0⟩
        else ⟨0, 0, 0⟩)
      (⟨fun _ _ _ g => (if g < 2 then some () else none, g + 1),
        fun r _ g => (some (⟨1 / 2, 1 / 3, 1 / 4⟩, ⟨r.origin, ⟨0, 1, 0⟩⟩), g)⟩ :
        hittable ℚ Unit Nat)
      ⟨⟨0, 0, 0⟩, ⟨0, 1, 0⟩⟩ 5 0).value :=
  (ray_color_in_unit_range _ _ ⟨⟨0, 0, 0⟩, ⟨0, 1, 0⟩⟩ 5 0
    (by
      intro v _
      split_ifs <;> norm_num)
    (by
      intro r2 rec g1 a s g2 hsc
      simp only [Prod.mk.injEq, Option.some.injEq] at hsc
      rw [← hsc.1.1, ← hsc.1.2]
      unfold in_unit_range
      refine ⟨by norm_num, fun h => ?_⟩
      have hy := congrArg vec3.y h
      norm_num at hy)
    (by decide)).1

end RayTracing
